import Mathlib

/-!
# Snowflake identifiers: bit-layout codec, host address selection, node id

A shallow embedding of the Go package `snow` (`id.go`, `ip.go`, `node.go`).

* A Go `int64` is an `Int` in `[-2^63, 2^63)`; every arithmetic or bitwise
  operation is followed by an explicit two's complement wrap.
* A Go `string` is a `String`, a byte slice is a list of bytes (`Fin 256`).
* A run-time panic (index out of range) is the result `none`.
* What the operating system and the Go standard library contribute is an
  input of the model: the result of the interface enumeration
  (`Enumeration`) and the parser of IPv6 text (`parseIPv6`).
-/

namespace Snow

/-! ## Machine integers -/

/-- Two's complement reinterpretation of an integer as a Go `int64`. -/
def wrap64 (x : Int) : Int := (x + 2 ^ 63) % 2 ^ 64 - 2 ^ 63

/-- The 64-bit pattern of an `int64`, as an unsigned number. -/
def bits64 (x : Int) : Nat := (x % 2 ^ 64).toNat

/-- Go `a + b` on `int64`. -/
def add64 (a b : Int) : Int := wrap64 (a + b)

/-- Go `a - b` on `int64`. -/
def sub64 (a b : Int) : Int := wrap64 (a - b)

/-- Go `a & b` on `int64`. -/
def and64 (a b : Int) : Int := wrap64 (Int.ofNat (bits64 a &&& bits64 b))

/-- Go `a | b` on `int64`. -/
def or64 (a b : Int) : Int := wrap64 (Int.ofNat (bits64 a ||| bits64 b))

/-- Go `a << k` on `int64` with an unsigned shift count: bits shifted out are lost. -/
def shl64 (a : Int) (k : Nat) : Int := wrap64 (a * 2 ^ k)

/-- Go `a >> k` on `int64` with an unsigned shift count: the arithmetic
(sign-propagating) shift, which is the floor of `a / 2^k`. -/
def shr64 (a : Int) (k : Nat) : Int := a / 2 ^ k

/-! ## Bit-layout codec (`id.go`) -/

/-- The fields of `Node` that `id.go` reads. The struct declaration is not among
the source files: `epoch`, `nodeMask` and `stepMask` are `int64` (the typing of the
expressions of `id.go` forces it) and the two shift counts are not negative. -/
structure Node where
  epoch : Int
  timeShift : Nat
  nodeShift : Nat
  nodeMask : Int
  stepMask : Int

/-- Go: `func (n *Node) TimeOf(f ID) int64 { return (int64(f) >> n.timeShift) + n.epoch }`. -/
def Node.TimeOf (n : Node) (f : Int) : Int := add64 (shr64 f n.timeShift) n.epoch

/-- Go: `func (n *Node) NodeIDOf(f ID) int64 { return int64(f) & n.nodeMask >> n.nodeShift }`;
`&` and `>>` have the same precedence in Go and associate to the left. -/
def Node.NodeIDOf (n : Node) (f : Int) : Int := shr64 (and64 f n.nodeMask) n.nodeShift

/-- Go: `func (n *Node) StepOf(f ID) int64 { return int64(f) & n.stepMask }`. -/
def Node.StepOf (n : Node) (f : Int) : Int := and64 f n.stepMask

/-- Modelled from the spec: the packing of section 4.1,
`(timestampDelta << timeShift) | (nodeID << nodeShift) | sequence`, in `int64`
arithmetic (the generator that packs IDs is not among the source files). -/
def Node.encode (n : Node) (t nodeID s : Int) : Int :=
  or64 (or64 (shl64 t n.timeShift) (shl64 nodeID n.nodeShift)) s

/-- Modelled from the spec: the derived constants of a layout (section 3 and 4.1),
`timeShift = nodeBits + stepBits`, `nodeShift = stepBits`,
`nodeMask = (2^nodeBits - 1) << nodeShift`, `stepMask = 2^stepBits - 1`
(the constructor of `Node` is not among the source files). -/
def Node.layout (epoch : Int) (nodeBits stepBits : Nat) : Node :=
  { epoch := epoch
    timeShift := nodeBits + stepBits
    nodeShift := stepBits
    nodeMask := shl64 (2 ^ nodeBits - 1) stepBits
    stepMask := 2 ^ stepBits - 1 }

/-! ## Host address selection (`ip.go`) -/

/-- Go `strings.HasPrefix(s, p)`. A Go string is modelled by a `String`; for
valid UTF-8 text, a byte-wise prefix and a character-wise prefix are the same. -/
def HasPrefix (s p : String) : Bool := p.data.isPrefixOf s.data

/-- Go `net.IP`, a byte slice. -/
abbrev IP := List (Fin 256)

/-- Go `net.IP.To4`: the 4-byte form of an IPv4 address (given in 4-byte form
or as a 16-byte IPv4-mapped address), `none` (Go `nil`) for anything else. -/
def IP.To4 (ip : IP) : Option IP :=
  if ip.length = 4 then some ip
  else if ip.length = 16 ∧ (ip.take 10).all (fun b => b = 0) ∧ ip[10]? = some 255
      ∧ ip[11]? = some 255 then some ((ip.drop 12).take 4)
  else none

/-- The dotted decimal text `a.b.c.d`. -/
def dottedQuad (a b c d : Nat) : String :=
  toString a ++ "." ++ toString b ++ "." ++ toString c ++ "." ++ toString d

/-- One lower-case hexadecimal digit. -/
def hexDigit (n : Nat) : Char := Nat.digitChar (n % 16)

/-- Go `net.hexString`: two hexadecimal digits per byte. -/
def hexString (b : IP) : String :=
  String.mk (b.flatMap (fun x => [hexDigit (x.val / 16), hexDigit x.val]))

/-- The eight 16-bit groups of a 16-byte address. -/
def groups16 : IP → List Nat
  | hi :: lo :: rest => (hi.val * 256 + lo.val) :: groups16 rest
  | _ => []

/-- Length of the run of zero groups at the head of a list. -/
def zeroRun : List Nat → Nat
  | 0 :: rest => zeroRun rest + 1
  | _ => 0

/-- The first longest run of at least two zero groups, as `(start, end)`,
scanning the suffixes of `gs` from position `i`; `best` is the run found so far. -/
def longestZeroRun : List Nat → Nat → Option (Nat × Nat) → Option (Nat × Nat)
  | [], _, best => best
  | g :: rest, i, best =>
    let l := zeroRun (g :: rest)
    let best' := match best with
      | none => if 2 ≤ l then some (i, i + l) else none
      | some (s, e) => if 2 ≤ l ∧ e - s < l then some (i, i + l) else some (s, e)
    longestZeroRun rest (i + 1) best'

/-- Hexadecimal text of a group, without leading zeros. -/
def hexGroup (g : Nat) : String := String.mk (Nat.toDigits 16 g)

/-- The IPv6 text of a 16-byte address that is not IPv4-mapped: hexadecimal
groups separated by `:`, the first longest run of two or more zero groups
written `::`. -/
def string6 (ip : IP) : String :=
  let gs := groups16 ip
  match longestZeroRun gs 0 none with
  | none => ":".intercalate (gs.map hexGroup)
  | some (s, e) =>
    ":".intercalate ((gs.take s).map hexGroup) ++ "::" ++ ":".intercalate ((gs.drop e).map hexGroup)

/-- Go `net.IP.String`. -/
def IP.String (ip : IP) : String :=
  if ip.length = 0 then "<nil>"
  else if ip.length ≠ 4 ∧ ip.length ≠ 16 then "?" ++ hexString ip
  else match IP.To4 ip with
    | some [a, b, c, d] => dottedQuad a.val b.val c.val d.val
    | _ => string6 ip

/-- Go: `type Iface struct { IP net.IP; IfaceName string }`. -/
structure Iface where
  IP : IP
  IfaceName : String

/-- Go: `type IfaceNameMatchMode int`. -/
abbrev IfaceNameMatchMode := Int

/-- Go: `IfaceNameMatchPrefix IfaceNameMatchMode = iota`. -/
def IfaceNameMatchPrefix : IfaceNameMatchMode := 0

/-- Go: `IfaceNameMatchExactly`, the second constant of the `iota` block. -/
def IfaceNameMatchExactly : IfaceNameMatchMode := 1

/-- The `for _, ifaceName := range ifaceNames` loop of `IfaceNameMatchMode.match`,
with its `switch mode`. -/
def matchLoop (mode : IfaceNameMatchMode) (name : String) : List String → Bool
  | [] => false
  | ifaceName :: rest =>
    if mode = IfaceNameMatchPrefix then
      if HasPrefix name ifaceName then true else matchLoop mode name rest
    else if mode = IfaceNameMatchExactly then
      if name = ifaceName then true else matchLoop mode name rest
    else matchLoop mode name rest

/-- Go: `func (mode IfaceNameMatchMode) match(ifaceNames []string, name string) bool`. -/
def IfaceNameMatchMode.match (mode : IfaceNameMatchMode) (ifaceNames : List String)
    (name : String) : Bool :=
  if ifaceNames.length = 0 then true else matchLoop mode name ifaceNames

/-- The result `([]Iface, error)` of one call `ListIfaces(IPv4)`; `err = none`
is Go's `nil` error. The operating system query behind it is the model's input. -/
structure Enumeration where
  ifaces : List Iface
  err : Option String

/-- Go: `func HostIPv4(mode IfaceNameMatchMode, primaryIfaceNames ...string) (ipList []string, err error)`.
On an enumeration error the named result `ipList` is returned as it is, `nil`. -/
def HostIPv4 (env : Enumeration) (mode : IfaceNameMatchMode) (primaryIfaceNames : List String) :
    List String × Option String :=
  match env.err with
  | some e => ([], some e)
  | none =>
    (((env.ifaces.filter (fun addr => IfaceNameMatchMode.match mode primaryIfaceNames addr.IfaceName)).map
      (fun addr => IP.String addr.IP)), none)

/-- Lines 22-37 of `InferHostIPv4`: the selection made without a usable
preferred name. `ipList[0]` on an empty slice panics, which is `none`. -/
def inferDefault (env : Enumeration) : Option String :=
  let ipList := (HostIPv4 env IfaceNameMatchPrefix ["en", "eth"]).1
  let ipList := if ipList.length = 0 then (HostIPv4 env IfaceNameMatchPrefix []).1 else ipList
  if ipList.length = 1 then ipList[0]?
  else
    let ipList2 := (HostIPv4 env IfaceNameMatchPrefix ["en0", "eth0"]).1
    if ipList2.length > 0 then ipList2[0]?
    else ipList[0]?

/-- Go: `func InferHostIPv4(ifaceName string) string`; every call of `HostIPv4`
inside sees the same enumeration `env`, and its error is discarded. The result
is `none` when the Go code panics. -/
def InferHostIPv4 (env : Enumeration) (ifaceName : String) : Option String :=
  if ifaceName ≠ "" then
    let ipList := (HostIPv4 env IfaceNameMatchExactly [ifaceName]).1
    if ipList.length > 0 then ipList[0]?
    else
      let ipList := (HostIPv4 env IfaceNameMatchPrefix [ifaceName]).1
      if ipList.length > 0 then ipList[0]?
      else inferDefault env
  else inferDefault env

/-! ## Node id from an address (`node.go`) -/

/-- A Go `[16]byte`. -/
abbrev Addr16 := { l : List (Fin 256) // l.length = 16 }

/-- The 16-byte IPv4-mapped form `::ffff:a.b.c.d` of an IPv4 address. -/
def v4Mapped (a b c d : Fin 256) : Addr16 :=
  ⟨[0, 0, 0, 0, 0, 0, 0, 0, 0, 0, 255, 255, a, b, c, d], rfl⟩

/-- Go `netip.parseIPv4`, the scan of a dotted decimal address, on the text
that is left. `atStart` says that the scan is at index 0, `prevDot` that the
previous byte is a dot; `fields` are the octets read (Go `fields[:pos]`),
`val` and `digLen` the value and number of digits of the current octet. -/
def parseIPv4Loop : List Char → Bool → Bool → List Nat → Nat → Nat → Option (List Nat)
  | [], _, _, fields, val, _ =>
    if fields.length < 3 then none else some (fields ++ [val])
  | c :: rest, atStart, prevDot, fields, val, digLen =>
    if '0' ≤ c ∧ c ≤ '9' then
      if digLen = 1 ∧ val = 0 then none
      else if val * 10 + (c.toNat - '0'.toNat) > 255 then none
      else parseIPv4Loop rest false false fields (val * 10 + (c.toNat - '0'.toNat)) (digLen + 1)
    else if c = '.' then
      if atStart ∨ rest = [] ∨ prevDot then none
      else if fields.length = 3 then none
      else parseIPv4Loop rest false true (fields ++ [val]) 0 0
    else none

/-- Go `netip.parseIPv4` followed by `As16`: the IPv4-mapped 16 bytes. -/
def parseIPv4 (s : String) : Option Addr16 :=
  match parseIPv4Loop s.data true false [] 0 0 with
  | some [a, b, c, d] => some (v4Mapped (Fin.ofNat a) (Fin.ofNat b) (Fin.ofNat c) (Fin.ofNat d))
  | _ => none

/-- The dispatch of Go `netip.ParseAddr` on the first `.`, `:` or `%` of the text. -/
def parseAddrScan (parseIPv6 : String → Option Addr16) (s : String) : List Char → Option Addr16
  | [] => none
  | c :: rest =>
    if c = '.' then parseIPv4 s
    else if c = ':' then parseIPv6 s
    else if c = '%' then none
    else parseAddrScan parseIPv6 s rest

/-- Go `net.ParseIP`: the 16-byte address the text denotes, `none` (Go `nil`)
when it is not an IP address. The parser of the IPv6 textual forms is the
parameter `parseIPv6`. -/
def ParseIP (parseIPv6 : String → Option Addr16) (s : String) : Option IP :=
  (parseAddrScan parseIPv6 s s.data).map (fun a => a.val)

/-- Go `binary.BigEndian.Uint32(b)`; it panics (`none`) when `len(b) < 4`. -/
def bigEndianUint32 : List (Fin 256) → Option Nat
  | b0 :: b1 :: b2 :: b3 :: _ =>
    some (b3.val ||| b2.val <<< 8 ||| b1.val <<< 16 ||| b0.val <<< 24)
  | _ => none

/-- Go: `func IP2Uint32(ip net.IP) uint32`. -/
def IP2Uint32 (ip : IP) : Option Nat :=
  if ip.length = 16 then bigEndianUint32 ((ip.drop 12).take 4)
  else bigEndianUint32 ip

/-- Go: `func ipNodeID(ip string) int64`; `none` when the Go code panics. -/
def ipNodeID (parseIPv6 : String → Option Addr16) (ip : String) : Option Int :=
  match ParseIP parseIPv6 ip with
  | none => some 0
  | some parsed =>
    match IP2Uint32 parsed with
    | none => none
    | some u => some (Int.ofNat (u &&& 0xff))

/-! ## Vocabulary of the statements -/

/-- An interface whose name begins with `en` or `eth`. -/
def conventional (x : Iface) : Bool := HasPrefix x.IfaceName "en" || HasPrefix x.IfaceName "eth"

/-- An interface whose name begins with `en0` or `eth0`. -/
def canonical (x : Iface) : Bool := HasPrefix x.IfaceName "en0" || HasPrefix x.IfaceName "eth0"

/-- An enumeration that succeeded with the list `ips`. -/
def enumerated (ips : List Iface) : Enumeration := { ifaces := ips, err := none }

/-- The textual address of an interface. -/
def addrText (x : Iface) : String := IP.String x.IP

/-- The candidate interfaces of the default policy: those with a conventional
name, or every interface when there is none. -/
def candidates (ips : List Iface) : List Iface :=
  if (ips.filter conventional).length = 0 then ips else ips.filter conventional

/-- Two `eth` interfaces, the first with a longer name than `eth0`. -/
def tieBreakExample : List Iface :=
  [⟨[10, 0, 0, 7], "eth01"⟩, ⟨[10, 0, 0, 2], "eth0"⟩]

/-- The interface list of the specification's example: `wlan0` before `eth0`. -/
def specExample : List Iface :=
  [⟨[192, 168, 1, 5], "wlan0"⟩, ⟨[10, 0, 0, 2], "eth0"⟩]

/-- A host whose only interface is `wlan0`. -/
def wlanOnlyExample : List Iface := [⟨[192, 168, 1, 5], "wlan0"⟩]

/-- Three interfaces: an `eth` one, then `wlan01`, then `wlan0`. -/
def exactExample : List Iface :=
  [⟨[10, 0, 0, 1], "eth0"⟩, ⟨[10, 0, 0, 2], "wlan01"⟩, ⟨[10, 0, 0, 3], "wlan0"⟩]

/-- Three interfaces: an `eth` one, then `wlan1`, then `wlan2`. -/
def byPrefixExample : List Iface :=
  [⟨[10, 0, 0, 1], "eth0"⟩, ⟨[10, 0, 0, 2], "wlan1"⟩, ⟨[10, 0, 0, 3], "wlan2"⟩]

/-- Two conventional interfaces, `eth0` being the second. -/
def canonicalSecondExample : List Iface :=
  [⟨[10, 0, 0, 9], "enp3s0"⟩, ⟨[10, 0, 0, 2], "eth0"⟩]

/-- The layout of the original Snowflake: 10 node bits, 12 sequence bits. -/
def exampleNode : Node := Node.layout 1288834974657 10 12

/-- An IPv6 parser that accepts nothing, for concrete evaluations. -/
def noIPv6 : String → Option Addr16 := fun _ => none

/-! ## Interface enumeration (`ip.go`) -/

/-- Go: `type ListMode int`. -/
abbrev ListMode := Int

/-- Go: `IPv4v6 ListMode = iota`, documented "list all ipv4 and ipv6". -/
def IPv4v6 : ListMode := 0

/-- Go: `IPv4`, the second constant of the block, documented "list only all ipv4". -/
def IPv4 : ListMode := 1

/-- Go: `IPv6`, the third constant of the block, documented "list only all ipv6". -/
def IPv6 : ListMode := 2

/-- Go `net.IP.To16`: the 16-byte form of an address; a 4-byte IPv4 address is
converted to its IPv4-mapped form, `none` (Go `nil`) for any other length. -/
def IP.To16 (ip : IP) : Option IP :=
  match ip with
  | [a, b, c, d] => some (v4Mapped a b c d).val
  | _ => if ip.length = 16 then some ip else none

/-- Go `net.IP.IsLoopback`: `127.x.y.z` for an IPv4 address, `::1` otherwise. -/
def IP.IsLoopback (ip : IP) : Bool :=
  match IP.To4 ip with
  | some ip4 => ip4.head? = some 127
  | none => ip = [0, 0, 0, 0, 0, 0, 0, 0, 0, 0, 0, 0, 0, 0, 0, 1]

/-- Go: `func makeModeMap(mode []ListMode) map[ListMode]bool`. The map is
modelled by the list of its keys, each once: every stored value is `true`
and `matchesMode` only asks whether a key is present. -/
def makeModeMap (mode : List ListMode) : List ListMode :=
  let modeMap := mode.foldl (fun m x => if x ∈ m then m else m ++ [x]) []
  if modeMap.length = 0 then [IPv4v6] else modeMap

/-- Go: `func matchesMode(modeMap map[ListMode]bool, ipnet *net.IPNet) bool`,
on the address `ipnet.IP`. -/
def matchesMode (modeMap : List ListMode) (ip : IP) : Bool :=
  if IPv4v6 ∈ modeMap then true
  else if IPv4 ∈ modeMap then (IP.To4 ip).isSome
  else if IPv6 ∈ modeMap then (IP.To16 ip).isSome
  else false

/-- One `net.Addr` of an interface: a `*net.IPNet` with its address, or an
address of another type (the type assertion of `ListIfaces` fails on it). -/
inductive Addr where
  | ipnet (ip : IP)
  | other

/-- One `net.Interface` as `ListIfaces` sees it: its name and the result of
`iface.Addrs()`. -/
structure NetInterface where
  Name : String
  Addrs : Except String (List Addr)

/-- The inner loop of `ListIfaces` over the addresses of one interface. -/
def listAddrs (modeMap : List ListMode) (name : String) : List Addr → List Iface
  | [] => []
  | Addr.other :: rest => listAddrs modeMap name rest
  | Addr.ipnet ip :: rest =>
    if IP.IsLoopback ip then listAddrs modeMap name rest
    else if matchesMode modeMap ip then
      { IP := ip, IfaceName := name } :: listAddrs modeMap name rest
    else listAddrs modeMap name rest

/-- The outer loop of `ListIfaces` over the interfaces; `ret` is the list built
so far, returned with the error when `iface.Addrs()` fails. -/
def listLoop (modeMap : List ListMode) : List NetInterface → List Iface → Enumeration
  | [], ret => { ifaces := ret, err := none }
  | iface :: rest, ret =>
    match iface.Addrs with
    | Except.error e => { ifaces := ret, err := some e }
    | Except.ok addrs => listLoop modeMap rest (ret ++ listAddrs modeMap iface.Name addrs)

/-- Go: `func ListIfaces(mode ...ListMode) ([]Iface, error)`; `os` is the result
of `net.Interfaces()`. -/
def ListIfaces (os : Except String (List NetInterface)) (mode : List ListMode) : Enumeration :=
  match os with
  | Except.error e => { ifaces := [], err := some e }
  | Except.ok list => listLoop (makeModeMap mode) list []

/-- A host with one interface `eth0` that has the IPv4 address `192.168.1.5`
(in 4-byte form) and the IPv6 address `fe80::1`. -/
def dualStackHost : Except String (List NetInterface) :=
  Except.ok [{ Name := "eth0",
               Addrs := Except.ok [Addr.ipnet [192, 168, 1, 5],
                 Addr.ipnet [0xfe, 0x80, 0, 0, 0, 0, 0, 0, 0, 0, 0, 0, 0, 0, 0, 1]] }]

/-- Matching as the specification words it: an interface matches iff no name
is given, or the mode is `IfaceNameMatchPrefix` and some given name is the
beginning of the interface name, or the mode is `IfaceNameMatchExactly` and
some given name equals the interface name. -/
def matchesSpec (mode : IfaceNameMatchMode) (names : List String) (name : String) : Bool :=
  decide (names = []
    ∨ (mode = IfaceNameMatchPrefix ∧ ∃ n ∈ names, HasPrefix name n = true)
    ∨ (mode = IfaceNameMatchExactly ∧ ∃ n ∈ names, name = n))

/-! ## Generator (specification, section 4.2) -/

/-- Modelled from the spec: the generator state of section 3, the layout
(epoch and the two bit widths), the node id fixed at construction, the last
timestamp for which an ID was issued and the sequence counter. `Node.Next` and
the declaration of the state it mutates are not among the source files. -/
structure Generator where
  epoch : Int
  nodeBits : Nat
  stepBits : Nat
  nodeID : Int
  lastTimestamp : Int
  sequence : Int

/-- Modelled from the spec: the codec constants of the generator's layout. -/
def Generator.node (g : Generator) : Node := Node.layout g.epoch g.nodeBits g.stepBits

/-- Modelled from the spec: step 5 of section 4.2 on the state reached,
`encode(now - epoch, nodeID, sequence)` with `now = lastTimestamp`. -/
def Generator.packed (g : Generator) : Int :=
  g.node.encode (sub64 g.lastTimestamp g.epoch) g.nodeID g.sequence

/-- Modelled from the spec: the wait of step 3 of section 4.2 for the next
millisecond boundary. `clock i` is the `i`-th reading of the system clock, `k`
the index of the next reading; the wait reads the clock until it shows a time
after `last` and returns that time with the index of the reading after it, or
`none` when `fuel` readings did not show one. -/
def waitNextMillis (clock : Nat → Int) (last : Int) : Nat → Nat → Option (Int × Nat)
  | 0, _ => none
  | fuel + 1, k =>
    if last < clock k then some (clock k, k + 1)
    else waitNextMillis clock last fuel (k + 1)

/-- Modelled from the spec: the outcome of one call of `Next` (section 4.2), an
ID with the new state and the index of the next clock reading, the
`ClockRollback` condition of step 2, or a wait of step 3 that `fuel` readings
did not end. `Node.Next` is not among the source files. -/
inductive NextResult where
  | issued (id : Int) (g : Generator) (k : Nat)
  | clockRollback
  | waiting

/-- Modelled from the spec: `Next()` of section 4.2, steps 1 to 5, with the
policy "fail with `ClockRollback`" for step 2. Step 1 reads `now = clock k`;
step 3 increments the sequence when `now = lastTimestamp` and, when the
sequence overflows its bit width, waits for the next millisecond and goes on as
step 4; step 4 resets the sequence and stores `now`; step 5 packs the ID. -/
def Generator.Next (clock : Nat → Int) (fuel : Nat) (g : Generator) (k : Nat) : NextResult :=
  if clock k < g.lastTimestamp then NextResult.clockRollback
  else if clock k = g.lastTimestamp then
    if 2 ^ g.stepBits ≤ g.sequence + 1 then
      match waitNextMillis clock g.lastTimestamp fuel (k + 1) with
      | none => NextResult.waiting
      | some (now, k1) =>
        NextResult.issued
          (Generator.packed { g with lastTimestamp := now, sequence := 0 })
          { g with lastTimestamp := now, sequence := 0 } k1
    else
      NextResult.issued
        (Generator.packed { g with sequence := g.sequence + 1 })
        { g with sequence := g.sequence + 1 } (k + 1)
  else
    NextResult.issued
      (Generator.packed { g with lastTimestamp := clock k, sequence := 0 })
      { g with lastTimestamp := clock k, sequence := 0 } (k + 1)

/-- Modelled from the spec: a sequential run of `N` calls of `Next` on one
generator (section 8, monotonicity), the IDs in the order of issue, the final
state and the index of the next clock reading; `none` when a call did not
issue an ID. -/
def Generator.run (clock : Nat → Int) (fuel : Nat) :
    Nat → Generator → Nat → Option (List Int × Generator × Nat)
  | 0, g, k => some ([], g, k)
  | N + 1, g, k =>
    match Generator.Next clock fuel g k with
    | NextResult.issued id g1 k1 =>
      match Generator.run clock fuel N g1 k1 with
      | some (ids, g2, k2) => some (id :: ids, g2, k2)
      | none => none
    | _ => none

/-- A generator with the original Snowflake layout (10 node bits, 12 sequence
bits, epoch 0) that has not issued an ID yet. -/
def freshGenerator : Generator :=
  { epoch := 0, nodeBits := 10, stepBits := 12, nodeID := 1, lastTimestamp := 0, sequence := 0 }

/-- A clock that never moves backward and reads `2^41 - 1`, `2^41`, ...
milliseconds after the epoch 0. -/
def lateClock : Nat → Int := fun i => 2 ^ 41 - 1 + i

/-- A generator with one sequence bit, so that the sequence overflows at the
third ID of a millisecond. -/
def smallGenerator : Generator :=
  { epoch := 100, nodeBits := 2, stepBits := 1, nodeID := 3, lastTimestamp := 0, sequence := 0 }

/-- A clock that stays on each millisecond for four readings, from time 100. -/
def slowClock : Nat → Int := fun i => 100 + i / 4

/-- Modelled from the spec: the invariants of a generator instance (section 3),
node bits + sequence bits ≤ 63, `0 ≤ node id < 2^nodeBits` and
`0 ≤ sequence < 2^stepBits`. -/
def Generator.Valid (g : Generator) : Prop :=
  g.nodeBits + g.stepBits ≤ 63 ∧ (0 ≤ g.nodeID ∧ g.nodeID < 2 ^ g.nodeBits)
    ∧ (0 ≤ g.sequence ∧ g.sequence < 2 ^ g.stepBits)

/-- The time `now` is within the timestamp field of the generator's layout: the
delta `now - epoch` fits the `63 - timeShift` bits above the node and sequence
fields (with the sign bit, `-2^(63 - timeShift) ≤ now - epoch < 2^(63 - timeShift)`). -/
def Generator.inField (g : Generator) (now : Int) : Prop :=
  -2 ^ (63 - (g.nodeBits + g.stepBits)) ≤ now - g.epoch
    ∧ now - g.epoch < 2 ^ (63 - (g.nodeBits + g.stepBits))

/-- Two states of one generator: the same layout and node id. -/
def Generator.sameConfig (g h : Generator) : Prop :=
  h.epoch = g.epoch ∧ h.nodeBits = g.nodeBits ∧ h.stepBits = g.stepBits ∧ h.nodeID = g.nodeID

/-- The state `h` comes after the state `g`: a later timestamp, or the same
timestamp and a larger sequence. -/
def Generator.before (g h : Generator) : Prop :=
  g.lastTimestamp < h.lastTimestamp
    ∨ (g.lastTimestamp = h.lastTimestamp ∧ g.sequence < h.sequence)

/-! ## Machine integer lemmas -/

theorem wrap64_of_range {x : Int} (h0 : -2 ^ 63 ≤ x) (h1 : x < 2 ^ 63) : wrap64 x = x := by
  unfold wrap64
  rw [Int.emod_eq_of_lt (by omega) (by omega)]
  omega

theorem bits64_natCast {a : Nat} (h : a < 2 ^ 64) : bits64 (a : Int) = a := by
  unfold bits64
  rw [Int.emod_eq_of_lt (by omega) (by exact_mod_cast h)]
  simp

theorem and64_natCast {a b : Nat} (ha : a < 2 ^ 63) (hb : b < 2 ^ 63) :
    and64 (a : Int) (b : Int) = ((a &&& b : Nat) : Int) := by
  unfold and64
  rw [bits64_natCast (by omega), bits64_natCast (by omega)]
  have h : a &&& b < 2 ^ 63 := Nat.and_lt_two_pow a hb
  exact wrap64_of_range (by simp only [Int.ofNat_eq_coe]; omega)
    (by simp only [Int.ofNat_eq_coe]; omega)

theorem or64_natCast {a b : Nat} (ha : a < 2 ^ 63) (hb : b < 2 ^ 63) :
    or64 (a : Int) (b : Int) = ((a ||| b : Nat) : Int) := by
  unfold or64
  rw [bits64_natCast (by omega), bits64_natCast (by omega)]
  have h : a ||| b < 2 ^ 63 := Nat.or_lt_two_pow ha hb
  exact wrap64_of_range (by simp only [Int.ofNat_eq_coe]; omega)
    (by simp only [Int.ofNat_eq_coe]; omega)

theorem shl64_natCast {a k : Nat} (h : a * 2 ^ k < 2 ^ 63) :
    shl64 (a : Int) k = ((a * 2 ^ k : Nat) : Int) := by
  unfold shl64
  have e : (a : Int) * 2 ^ k = ((a * 2 ^ k : Nat) : Int) := by push_cast; ring
  rw [e]
  exact wrap64_of_range (by omega) (by omega)

theorem shr64_natCast (a k : Nat) : shr64 (a : Int) k = ((a / 2 ^ k : Nat) : Int) := by
  unfold shr64
  push_cast
  rfl

theorem nat_and_shiftLeft (x m k : Nat) : x &&& (m <<< k) = ((x >>> k) &&& m) <<< k := by
  apply Nat.eq_of_testBit_eq
  intro j
  simp only [Nat.testBit_and, Nat.testBit_shiftLeft, Nat.testBit_shiftRight]
  by_cases h : k ≤ j
  · simp [h, Nat.add_sub_cancel' h]
  · simp [h]

theorem pack_nat_hi {nb sb t n : Nat} (hn : n < 2 ^ nb) :
    t * 2 ^ (nb + sb) ||| n * 2 ^ sb = t * 2 ^ (nb + sb) + n * 2 ^ sb := by
  have hlt : n * 2 ^ sb < 2 ^ (nb + sb) := by
    rw [pow_add]; exact Nat.mul_lt_mul_of_pos_right hn (Nat.two_pow_pos sb)
  have := Nat.mul_add_lt_is_or hlt t
  rw [Nat.mul_comm (2 ^ (nb + sb)) t] at this
  exact this.symm

/-- The packed value of three in-range fields, as a natural number. -/
theorem pack_nat {nb sb t n s : Nat} (hn : n < 2 ^ nb) (hs : s < 2 ^ sb) :
    t * 2 ^ (nb + sb) ||| n * 2 ^ sb ||| s = t * 2 ^ (nb + sb) + n * 2 ^ sb + s := by
  have e1 : t * 2 ^ (nb + sb) + n * 2 ^ sb = 2 ^ sb * (t * 2 ^ nb + n) := by
    rw [pow_add]; ring
  rw [pack_nat_hi hn, e1, ← Nat.mul_add_lt_is_or hs]

theorem pack_lt {nb sb t n s : Nat} (hb : nb + sb ≤ 63) (ht : t < 2 ^ (63 - (nb + sb)))
    (hn : n < 2 ^ nb) (hs : s < 2 ^ sb) :
    t * 2 ^ (nb + sb) + n * 2 ^ sb + s < 2 ^ 63 := by
  have h1 : n * 2 ^ sb + s < 2 ^ (nb + sb) := by
    have : (n + 1) * 2 ^ sb ≤ 2 ^ nb * 2 ^ sb := Nat.mul_le_mul_right _ hn
    rw [pow_add]; nlinarith
  have h2 : (t + 1) * 2 ^ (nb + sb) ≤ 2 ^ (63 - (nb + sb)) * 2 ^ (nb + sb) :=
    Nat.mul_le_mul_right _ ht
  rw [← pow_add, Nat.sub_add_cancel hb] at h2
  nlinarith

theorem wrap64_sub_wrap64_add (t e : Int) (h0 : 0 ≤ t) (h1 : t < 2 ^ 63) :
    wrap64 (wrap64 (t + e) - e) = t := by
  unfold wrap64
  omega

theorem encode_natCast {n : Node} {nb sb t nid s : Nat} (hb : nb + sb ≤ 63)
    (hts : n.timeShift = nb + sb) (hns : n.nodeShift = sb)
    (ht : t < 2 ^ (63 - (nb + sb))) (hn : nid < 2 ^ nb) (hs : s < 2 ^ sb) :
    n.encode (t : Int) (nid : Int) (s : Int)
      = ((t * 2 ^ (nb + sb) + nid * 2 ^ sb + s : Nat) : Int) := by
  have hlt := pack_lt hb ht hn hs
  have hp := pack_nat (t := t) hn hs
  have hh := @pack_nat_hi nb sb t nid hn
  unfold Node.encode
  rw [hts, hns, shl64_natCast (by omega), shl64_natCast (by omega),
    or64_natCast (by omega) (by omega), or64_natCast (by omega) (by omega), hp]

/-- C1: round trip of the bit-layout codec. For a layout with
`nodeBits + stepBits ≤ 63`, `timeShift = nodeBits + stepBits`, `nodeShift = stepBits`,
`nodeMask = (2^nodeBits - 1) << nodeShift` and `stepMask = 2^stepBits - 1`, and a
triple with `0 ≤ t < 2^(63 - timeShift)`, `0 ≤ nid < 2^nodeBits`, `0 ≤ s < 2^stepBits`,
the ID `(t << timeShift) | (nid << nodeShift) | s` decodes to the triple: `TimeOf`
is `epoch + t` (the `int64` sum; subtracting the epoch gives back `t`, and the sum is
the integer `epoch + t` whenever that is an `int64`), `NodeIDOf` is `nid` and
`StepOf` is `s`. -/
theorem decode_encode_roundtrip (n : Node) (nodeBits stepBits : Nat) (t nid s : Int)
    (hbits : nodeBits + stepBits ≤ 63)
    (hts : n.timeShift = nodeBits + stepBits) (hns : n.nodeShift = stepBits)
    (hnm : n.nodeMask = shl64 (2 ^ nodeBits - 1) n.nodeShift)
    (hsm : n.stepMask = 2 ^ stepBits - 1)
    (ht : 0 ≤ t ∧ t < 2 ^ (63 - n.timeShift))
    (hn : 0 ≤ nid ∧ nid < 2 ^ nodeBits)
    (hs : 0 ≤ s ∧ s < 2 ^ stepBits) :
    n.TimeOf (n.encode t nid s) = add64 n.epoch t
      ∧ n.NodeIDOf (n.encode t nid s) = nid
      ∧ n.StepOf (n.encode t nid s) = s
      ∧ sub64 (n.TimeOf (n.encode t nid s)) n.epoch = t
      ∧ (-2 ^ 63 ≤ n.epoch + t ∧ n.epoch + t < 2 ^ 63 →
          n.TimeOf (n.encode t nid s) = n.epoch + t) := by
  obtain ⟨ht0, ht1⟩ := ht
  obtain ⟨hn0, hn1⟩ := hn
  obtain ⟨hs0, hs1⟩ := hs
  lift t to Nat using ht0
  lift nid to Nat using hn0
  lift s to Nat using hs0
  rw [hts] at ht1
  have ht1 : t < 2 ^ (63 - (nodeBits + stepBits)) := by exact_mod_cast ht1
  have hn1 : nid < 2 ^ nodeBits := by exact_mod_cast hn1
  have hs1 : s < 2 ^ stepBits := by exact_mod_cast hs1
  have henc := encode_natCast hbits hts hns ht1 hn1 hs1
  have hlt := pack_lt hbits ht1 hn1 hs1
  have hlow : nid * 2 ^ stepBits + s < 2 ^ (nodeBits + stepBits) := by
    have : (nid + 1) * 2 ^ stepBits ≤ 2 ^ nodeBits * 2 ^ stepBits := Nat.mul_le_mul_right _ hn1
    rw [pow_add]; nlinarith
  have htime : n.TimeOf (n.encode t nid s) = add64 n.epoch t := by
    unfold Node.TimeOf
    rw [henc, hts, shr64_natCast]
    have : (t * 2 ^ (nodeBits + stepBits) + nid * 2 ^ stepBits + s) / 2 ^ (nodeBits + stepBits) = t := by
      rw [Nat.add_assoc, Nat.mul_comm, Nat.mul_add_div (Nat.two_pow_pos _), Nat.div_eq_of_lt hlow]
      rfl
    rw [this]
    unfold add64
    rw [Int.add_comm]
  have hmaskNat : ((2 : Int) ^ nodeBits - 1) = ((2 ^ nodeBits - 1 : Nat) : Int) := by
    have : 1 ≤ 2 ^ nodeBits := Nat.one_le_two_pow
    push_cast [Nat.cast_sub this]
    rfl
  have hmlt : (2 ^ nodeBits - 1) * 2 ^ stepBits < 2 ^ 63 := by
    have h1 : (2 ^ nodeBits - 1) * 2 ^ stepBits < 2 ^ nodeBits * 2 ^ stepBits :=
      Nat.mul_lt_mul_of_pos_right (Nat.sub_lt (Nat.two_pow_pos _) Nat.one_pos) (Nat.two_pow_pos _)
    rw [← pow_add] at h1
    exact h1.trans_le (Nat.pow_le_pow_right (by decide) hbits)
  have hnode : n.NodeIDOf (n.encode t nid s) = nid := by
    unfold Node.NodeIDOf
    rw [henc, hnm, hns, hmaskNat, shl64_natCast hmlt, and64_natCast hlt hmlt, shr64_natCast,
      ← Nat.shiftLeft_eq (2 ^ nodeBits - 1) stepBits, nat_and_shiftLeft, Nat.and_pow_two_sub_one_eq_mod, Nat.shiftRight_eq_div_pow,
      Nat.shiftLeft_eq, Nat.mul_div_cancel _ (Nat.two_pow_pos _)]
    have e : t * 2 ^ (nodeBits + stepBits) + nid * 2 ^ stepBits + s
        = s + 2 ^ stepBits * (t * 2 ^ nodeBits + nid) := by rw [pow_add]; ring
    rw [e, Nat.add_mul_div_left _ _ (Nat.two_pow_pos _), Nat.div_eq_of_lt hs1, Nat.zero_add,
      Nat.add_comm, Nat.add_mul_mod_self_right, Nat.mod_eq_of_lt hn1]
  have hstep : n.StepOf (n.encode t nid s) = s := by
    unfold Node.StepOf
    have hsmNat : ((2 : Int) ^ stepBits - 1) = ((2 ^ stepBits - 1 : Nat) : Int) := by
      have : 1 ≤ 2 ^ stepBits := Nat.one_le_two_pow
      push_cast [Nat.cast_sub this]
      rfl
    have hslt : 2 ^ stepBits - 1 < 2 ^ 63 :=
      (Nat.sub_lt (Nat.two_pow_pos _) Nat.one_pos).trans_le
        (Nat.pow_le_pow_right (by decide) (by omega))
    rw [henc, hsm, hsmNat, and64_natCast hlt hslt, Nat.and_pow_two_sub_one_eq_mod]
    have e : t * 2 ^ (nodeBits + stepBits) + nid * 2 ^ stepBits + s
        = s + 2 ^ stepBits * (t * 2 ^ nodeBits + nid) := by rw [pow_add]; ring
    rw [e, Nat.add_mul_mod_self_left, Nat.mod_eq_of_lt hs1]
  have htlt : (t : Int) < 2 ^ 63 := by
    have : t < 2 ^ 63 := ht1.trans_le (Nat.pow_le_pow_right (by decide) (Nat.sub_le _ _))
    exact_mod_cast this
  refine ⟨htime, hnode, hstep, ?_, ?_⟩
  · rw [htime]
    unfold sub64 add64
    rw [Int.add_comm]
    exact wrap64_sub_wrap64_add _ _ (by omega) htlt
  · rintro ⟨h0, h1⟩
    rw [htime]
    exact wrap64_of_range h0 h1

theorem decode_encode_roundtrip_witness :
    exampleNode.TimeOf (exampleNode.encode 5 3 7) = 1288834974657 + 5
      ∧ exampleNode.NodeIDOf (exampleNode.encode 5 3 7) = 3
      ∧ exampleNode.StepOf (exampleNode.encode 5 3 7) = 7 :=
  have h := decode_encode_roundtrip exampleNode 10 12 5 3 7 (by decide) rfl rfl rfl rfl
    ⟨by decide, by decide⟩ ⟨by decide, by decide⟩ ⟨by decide, by decide⟩
  ⟨h.2.2.2.2 ⟨by decide, by decide⟩, h.2.1, h.2.2.1⟩

/-! ## Host address selection -/

theorem HostIPv4_enumerated (ips : List Iface) (mode : IfaceNameMatchMode) (names : List String) :
    (HostIPv4 (enumerated ips) mode names).1
      = (ips.filter (fun a => IfaceNameMatchMode.match mode names a.IfaceName)).map
          (fun a => IP.String a.IP) := rfl

theorem HostIPv4_failed (env : Enumeration) (e : String) (h : env.err = some e)
    (mode : IfaceNameMatchMode) (names : List String) :
    (HostIPv4 env mode names).1 = [] := by
  unfold HostIPv4; rw [h]

theorem match_exactly_one (n name : String) :
    IfaceNameMatchMode.match IfaceNameMatchExactly [n] name = decide (name = n) := by
  simp [IfaceNameMatchMode.match, matchLoop, IfaceNameMatchExactly, IfaceNameMatchPrefix]

theorem match_byPrefix_one (n name : String) :
    IfaceNameMatchMode.match IfaceNameMatchPrefix [n] name = HasPrefix name n := by
  simp [IfaceNameMatchMode.match, matchLoop]

theorem match_byPrefix_two (a b name : String) :
    IfaceNameMatchMode.match IfaceNameMatchPrefix [a, b] name
      = (HasPrefix name a || HasPrefix name b) := by
  simp only [IfaceNameMatchMode.match, matchLoop]
  cases HasPrefix name a <;> cases HasPrefix name b <;> simp

theorem match_no_names (mode : IfaceNameMatchMode) (name : String) :
    IfaceNameMatchMode.match mode [] name = true := by
  simp [IfaceNameMatchMode.match]

theorem first_of_filter_map {α β : Type} (l : List α) (p : α → Bool) (f : α → β) :
    ((l.filter p).map f)[0]? = (l.find? p).map f := by
  induction l with
  | nil => rfl
  | cons x xs ih =>
    by_cases h : p x
    · simp [List.filter_cons, List.find?_cons, h]
    · simp only [List.filter_cons, List.find?_cons, h]
      simpa using ih

theorem filter_map_length_pos {α β : Type} (l : List α) (p : α → Bool) (f : α → β) :
    0 < ((l.filter p).map f).length ↔ ∃ x ∈ l, p x = true := by
  simp [List.length_pos, List.filter_eq_nil_iff]

theorem HasPrefix_trans {s a b : String} (hab : HasPrefix a b = true) (hsa : HasPrefix s a = true) :
    HasPrefix s b = true := by
  unfold HasPrefix at *
  rw [List.isPrefixOf_iff_prefix] at *
  exact hab.trans hsa

theorem canonical_conventional (x : Iface) (h : canonical x = true) : conventional x = true := by
  unfold canonical at h
  unfold conventional
  rw [Bool.or_eq_true] at h ⊢
  rcases h with h | h
  · exact Or.inl (HasPrefix_trans (a := "en0") (by decide) h)
  · exact Or.inr (HasPrefix_trans (a := "eth0") (by decide) h)

theorem find_some_of_exists {α : Type} (l : List α) (p : α → Bool) (h : ∃ x ∈ l, p x = true) :
    ∃ y, l.find? p = some y ∧ y ∈ l ∧ p y = true := by
  cases hf : l.find? p with
  | none =>
    rw [List.find?_eq_none] at hf
    obtain ⟨x, hx, hp⟩ := h
    exact absurd hp (hf x hx)
  | some y => exact ⟨y, rfl, List.mem_of_find?_eq_some hf, List.find?_some hf⟩

theorem inferDefault_enumerated (ips : List Iface) :
    inferDefault (enumerated ips) =
      if ((candidates ips).map addrText).length = 1 then ((candidates ips).map addrText)[0]?
      else if ((ips.filter canonical).map addrText).length > 0 then
        ((ips.filter canonical).map addrText)[0]?
      else ((candidates ips).map addrText)[0]? := by
  have h1 : (fun a : Iface => IfaceNameMatchMode.match IfaceNameMatchPrefix ["en", "eth"] a.IfaceName)
      = conventional := by
    funext a; rw [match_byPrefix_two]; rfl
  have h2 : (fun a : Iface => IfaceNameMatchMode.match IfaceNameMatchPrefix ["en0", "eth0"] a.IfaceName)
      = canonical := by
    funext a; rw [match_byPrefix_two]; rfl
  have h3 : (fun a : Iface => IfaceNameMatchMode.match IfaceNameMatchPrefix [] a.IfaceName)
      = fun _ => true := by
    funext a; rw [match_no_names]
  have h4 : (fun a : Iface => IP.String a.IP) = addrText := rfl
  have h5 : (if ((ips.filter conventional).map addrText).length = 0 then ips.map addrText
      else (ips.filter conventional).map addrText) = (candidates ips).map addrText := by
    unfold candidates
    simp only [List.length_map]
    split <;> rfl
  simp only [inferDefault, HostIPv4_enumerated, h1, h2, h3, h4, List.filter_true, h5]

theorem candidates_of_conventional (ips : List Iface) (h : ∃ x ∈ ips, conventional x = true) :
    candidates ips = ips.filter conventional := by
  unfold candidates
  have hpos := (filter_map_length_pos ips conventional addrText).2 h
  rw [List.length_map] at hpos
  rw [if_neg (by omega)]

theorem candidates_of_none (ips : List Iface) (h : ∀ x ∈ ips, conventional x = false) :
    candidates ips = ips := by
  unfold candidates
  have : ips.filter conventional = [] := by
    rw [List.filter_eq_nil_iff]
    intro x hx; simp [h x hx]
  rw [this]; rfl

theorem candidates_first_mem (ips : List Iface) (hne : ips ≠ []) :
    ∃ x ∈ ips, ((candidates ips).map addrText)[0]? = some (IP.String x.IP) := by
  by_cases h : ∃ x ∈ ips, conventional x = true
  · rw [candidates_of_conventional ips h]
    obtain ⟨y, hy, hym, -⟩ := find_some_of_exists ips conventional h
    exact ⟨y, hym, by rw [first_of_filter_map, hy]; rfl⟩
  · rw [candidates_of_none ips (by
      intro x hx
      cases hc : conventional x with
      | false => rfl
      | true => exact absurd ⟨x, hx, hc⟩ h)]
    cases ips with
    | nil => exact absurd rfl hne
    | cons x rest => exact ⟨x, List.mem_cons_self _ _, by simp [addrText]⟩

theorem InferHostIPv4_empty_name (env : Enumeration) : InferHostIPv4 env "" = inferDefault env := by
  simp [InferHostIPv4]

/-- C4: conventional names are preferred. When some enumerated interface has a
name beginning with `en` or `eth`, `InferHostIPv4("")` returns the address of an
interface whose name begins with `en` or `eth`, wherever it stands in the list. -/
theorem conventional_preferred (ips : List Iface)
    (h : ∃ x ∈ ips, conventional x = true) :
    ∃ y ∈ ips, conventional y = true ∧
      InferHostIPv4 (enumerated ips) "" = some (IP.String y.IP) := by
  rw [InferHostIPv4_empty_name, inferDefault_enumerated, candidates_of_conventional ips h]
  obtain ⟨y, hy, hym, hyp⟩ := find_some_of_exists ips conventional h
  have hfirst : ((ips.filter conventional).map addrText)[0]? = some (IP.String y.IP) := by
    rw [first_of_filter_map, hy]; rfl
  by_cases h1 : ((ips.filter conventional).map addrText).length = 1
  · rw [if_pos h1]
    exact ⟨y, hym, hyp, hfirst⟩
  · rw [if_neg h1]
    by_cases hc : ((ips.filter canonical).map addrText).length > 0
    · rw [if_pos hc]
      obtain ⟨z, hz, hzm, hzp⟩ :=
        find_some_of_exists ips canonical ((filter_map_length_pos ips canonical addrText).1 hc)
      refine ⟨z, hzm, canonical_conventional z hzp, ?_⟩
      rw [first_of_filter_map, hz]; rfl
    · rw [if_neg hc]
      exact ⟨y, hym, hyp, hfirst⟩

theorem conventional_preferred_witness :
    (∃ y ∈ specExample, conventional y = true ∧
        InferHostIPv4 (enumerated specExample) "" = some (IP.String y.IP))
      ∧ InferHostIPv4 (enumerated specExample) "" = some "10.0.0.2" :=
  ⟨conventional_preferred specExample (by decide), by decide⟩

theorem first_of_filter_pos (l : List Iface) (p : Iface → Bool)
    (hpos : 0 < ((l.filter p).map addrText).length) :
    ∃ y, l.find? p = some y ∧ y ∈ l ∧ p y = true ∧
      ((l.filter p).map addrText)[0]? = some (IP.String y.IP) := by
  obtain ⟨y, hy, hym, hyp⟩ :=
    find_some_of_exists l p ((filter_map_length_pos l p addrText).1 hpos)
  exact ⟨y, hy, hym, hyp, by rw [first_of_filter_map, hy]; rfl⟩

theorem inferDefault_mem (ips : List Iface) (hne : ips ≠ []) :
    ∃ x ∈ ips, inferDefault (enumerated ips) = some (IP.String x.IP) := by
  rw [inferDefault_enumerated]
  by_cases h1 : ((candidates ips).map addrText).length = 1
  · rw [if_pos h1]
    exact candidates_first_mem ips hne
  · rw [if_neg h1]
    by_cases hc : ((ips.filter canonical).map addrText).length > 0
    · rw [if_pos hc]
      obtain ⟨y, -, hym, -, hy⟩ := first_of_filter_pos ips canonical hc
      exact ⟨y, hym, hy⟩
    · rw [if_neg hc]
      exact candidates_first_mem ips hne

theorem InferHostIPv4_mem (ips : List Iface) (hne : ips ≠ []) (ifaceName : String) :
    ∃ x ∈ ips, InferHostIPv4 (enumerated ips) ifaceName = some (IP.String x.IP) := by
  have h1 : (fun a : Iface => IfaceNameMatchMode.match IfaceNameMatchExactly [ifaceName] a.IfaceName)
      = fun a => decide (a.IfaceName = ifaceName) := by
    funext a; rw [match_exactly_one]
  have h2 : (fun a : Iface => IfaceNameMatchMode.match IfaceNameMatchPrefix [ifaceName] a.IfaceName)
      = fun a => HasPrefix a.IfaceName ifaceName := by
    funext a; rw [match_byPrefix_one]
  have h4 : (fun a : Iface => IP.String a.IP) = addrText := rfl
  unfold InferHostIPv4
  simp only [HostIPv4_enumerated, h1, h2, h4]
  split
  · split
    · rename_i hc
      obtain ⟨y, -, hym, -, hy⟩ := first_of_filter_pos ips _ hc
      exact ⟨y, hym, hy⟩
    · split
      · rename_i hc
        obtain ⟨y, -, hym, -, hy⟩ := first_of_filter_pos ips _ hc
        exact ⟨y, hym, hy⟩
      · exact inferDefault_mem ips hne
  · exact inferDefault_mem ips hne

/-- C5: an exact match is preferred. For a non-empty `ifaceName` and a list
with an interface named exactly `ifaceName`, `InferHostIPv4(ifaceName)` returns the
address of the first interface, in enumeration order, whose name equals `ifaceName`. -/
theorem exact_match_first (ips : List Iface) (ifaceName : String) (hname : ifaceName ≠ "")
    (h : ∃ x ∈ ips, x.IfaceName = ifaceName) :
    ∃ y, ips.find? (fun x => decide (x.IfaceName = ifaceName)) = some y ∧
      InferHostIPv4 (enumerated ips) ifaceName = some (IP.String y.IP) := by
  have h1 : (fun a : Iface => IfaceNameMatchMode.match IfaceNameMatchExactly [ifaceName] a.IfaceName)
      = fun a => decide (a.IfaceName = ifaceName) := by
    funext a; rw [match_exactly_one]
  have h4 : (fun a : Iface => IP.String a.IP) = addrText := rfl
  have hpos : 0 < ((ips.filter (fun a => decide (a.IfaceName = ifaceName))).map addrText).length := by
    rw [filter_map_length_pos]
    obtain ⟨x, hx, hxn⟩ := h
    exact ⟨x, hx, by simpa using hxn⟩
  obtain ⟨y, hy, -, -, hfirst⟩ := first_of_filter_pos ips _ hpos
  refine ⟨y, hy, ?_⟩
  unfold InferHostIPv4
  simp only [HostIPv4_enumerated, h1, h4, if_pos hname, if_pos hpos, ne_eq, not_false_eq_true]
  exact hfirst

theorem exact_match_first_witness :
    (∃ y, exactExample.find? (fun x => decide (x.IfaceName = "wlan0")) = some y ∧
        InferHostIPv4 (enumerated exactExample) "wlan0" = some (IP.String y.IP))
      ∧ InferHostIPv4 (enumerated exactExample) "wlan0" = some "10.0.0.3" :=
  ⟨exact_match_first exactExample "wlan0" (by decide) (by decide), by decide⟩

/-- C6: a match by the beginning of the name is the second preference. For a
non-empty `ifaceName`, when no interface is named `ifaceName` and some interface
name begins with `ifaceName`, `InferHostIPv4(ifaceName)` returns the address of the
first interface, in enumeration order, whose name begins with `ifaceName`. -/
theorem byPrefix_match_second (ips : List Iface) (ifaceName : String) (hname : ifaceName ≠ "")
    (hno : ∀ x ∈ ips, x.IfaceName ≠ ifaceName)
    (h : ∃ x ∈ ips, HasPrefix x.IfaceName ifaceName = true) :
    ∃ y, ips.find? (fun x => HasPrefix x.IfaceName ifaceName) = some y ∧
      InferHostIPv4 (enumerated ips) ifaceName = some (IP.String y.IP) := by
  have h1 : (fun a : Iface => IfaceNameMatchMode.match IfaceNameMatchExactly [ifaceName] a.IfaceName)
      = fun a => decide (a.IfaceName = ifaceName) := by
    funext a; rw [match_exactly_one]
  have h2 : (fun a : Iface => IfaceNameMatchMode.match IfaceNameMatchPrefix [ifaceName] a.IfaceName)
      = fun a => HasPrefix a.IfaceName ifaceName := by
    funext a; rw [match_byPrefix_one]
  have h4 : (fun a : Iface => IP.String a.IP) = addrText := rfl
  have hzero : ¬ 0 < ((ips.filter (fun a => decide (a.IfaceName = ifaceName))).map addrText).length := by
    rw [filter_map_length_pos]
    rintro ⟨x, hx, hxn⟩
    exact hno x hx (by simpa using hxn)
  have hpos : 0 < ((ips.filter (fun a => HasPrefix a.IfaceName ifaceName)).map addrText).length := by
    rw [filter_map_length_pos]
    exact h
  obtain ⟨y, hy, -, -, hfirst⟩ := first_of_filter_pos ips _ hpos
  refine ⟨y, hy, ?_⟩
  unfold InferHostIPv4
  simp only [HostIPv4_enumerated, h1, h2, h4, if_pos hname, if_neg hzero, if_pos hpos, ne_eq,
    not_false_eq_true]
  exact hfirst

theorem byPrefix_match_second_witness :
    (∃ y, byPrefixExample.find? (fun x => HasPrefix x.IfaceName "wlan") = some y ∧
        InferHostIPv4 (enumerated byPrefixExample) "wlan" = some (IP.String y.IP))
      ∧ InferHostIPv4 (enumerated byPrefixExample) "wlan" = some "10.0.0.2" :=
  ⟨byPrefix_match_second byPrefixExample "wlan" (by decide) (by decide) (by decide), by decide⟩

theorem string_ne_empty_of_data {s : String} (h : s.data ≠ []) : s ≠ "" := by
  intro hs; rw [hs] at h; exact h rfl

theorem dottedQuad_ne_empty (a b c d : Nat) : dottedQuad a b c d ≠ "" := by
  apply string_ne_empty_of_data
  simp [dottedQuad]

theorem intercalate_go_data_ne_nil (acc sep : String) (rest : List String) (h : acc.data ≠ []) :
    (String.intercalate.go acc sep rest).data ≠ [] := by
  induction rest generalizing acc with
  | nil => simpa [String.intercalate.go] using h
  | cons x xs ih =>
    simp only [String.intercalate.go]
    apply ih
    simp [h]

theorem intercalate_data_ne_nil (a b : String) (rest : List String) :
    (":".intercalate (a :: b :: rest)).data ≠ [] := by
  simp only [String.intercalate, String.intercalate.go]
  apply intercalate_go_data_ne_nil
  simp

theorem string6_ne_empty (ip : IP) (h : ip.length = 16) : string6 ip ≠ "" := by
  apply string_ne_empty_of_data
  unfold string6
  match ip, h with
  | [b0, b1, b2, b3, b4, b5, b6, b7, b8, b9, b10, b11, b12, b13, b14, b15], _ =>
    simp only [groups16]
    split
    · exact intercalate_data_ne_nil _ _ _
    · simp

theorem IP.String_ne_empty (ip : IP) : IP.String ip ≠ "" := by
  unfold IP.String
  split
  · decide
  · split
    · apply string_ne_empty_of_data; simp
    · rename_i h0 h1
      split
      · exact dottedQuad_ne_empty _ _ _ _
      · apply string6_ne_empty
        have : ip.length = 4 ∨ ip.length = 16 := by omega
        rcases this with h4 | h16
        · exfalso
          rename_i hcase
          match ip, h4 with
          | [a, b, c, d], _ => exact hcase a b c d (by simp [IP.To4])
        · exact h16
/-- With no enumerated interface, or a failed enumeration, every list `HostIPv4`
returns is empty and `InferHostIPv4` reaches `ipList[0]` on an empty slice. -/
theorem InferHostIPv4_no_address_panics (env : Enumeration)
    (h : env.ifaces = [] ∨ env.err ≠ none) (ifaceName : String) :
    InferHostIPv4 env ifaceName = none := by
  have hall : ∀ mode names, (HostIPv4 env mode names).1 = [] := by
    intro mode names
    cases he : env.err with
    | some e => exact HostIPv4_failed env e he mode names
    | none =>
      rcases h with h | h
      · unfold HostIPv4; rw [he]; simp [h]
      · exact absurd he h
  simp [InferHostIPv4, inferDefault, hall]

/-- C2: the code at the failing inputs. With an empty interface list, and with
a failed enumeration, `InferHostIPv4("")` and `InferHostIPv4("eth0")` panic
(index out of range) where the claim promises the empty string. -/
theorem InferHostIPv4_panics_without_address :
    InferHostIPv4 { ifaces := [], err := none } "" = none
      ∧ InferHostIPv4 { ifaces := [], err := none } "eth0" = none
      ∧ InferHostIPv4 { ifaces := [], err := some "route ip+net: no such network interface" } "" = none
      ∧ InferHostIPv4 { ifaces := [], err := some "route ip+net: no such network interface" } "eth0"
          = none := by
  decide

/-- C3: on a host with at least one enumerated interface, `InferHostIPv4`
returns, for every `ifaceName`, the textual address of some interface of the list,
and that text is not empty. -/
theorem InferHostIPv4_some_address (ips : List Iface) (hne : ips ≠ []) (ifaceName : String) :
    ∃ x ∈ ips, InferHostIPv4 (enumerated ips) ifaceName = some (IP.String x.IP)
      ∧ IP.String x.IP ≠ "" := by
  obtain ⟨x, hx, h⟩ := InferHostIPv4_mem ips hne ifaceName
  exact ⟨x, hx, h, IP.String_ne_empty x.IP⟩

theorem InferHostIPv4_some_address_witness :
    (∃ x ∈ specExample, InferHostIPv4 (enumerated specExample) "wlan" = some (IP.String x.IP)
        ∧ IP.String x.IP ≠ "")
      ∧ InferHostIPv4 (enumerated specExample) "wlan" = some "192.168.1.5" :=
  ⟨InferHostIPv4_some_address specExample (List.cons_ne_nil _ _) "wlan", by decide⟩

/-- C8: fallback to any address. When the list is not empty and no interface
name begins with `en` or `eth`, `InferHostIPv4("")` returns the address of the first
interface in enumeration order. -/
theorem fallback_first_address (x : Iface) (rest : List Iface)
    (h : ∀ y ∈ x :: rest, conventional y = false) :
    InferHostIPv4 (enumerated (x :: rest)) "" = some (IP.String x.IP) := by
  rw [InferHostIPv4_empty_name, inferDefault_enumerated, candidates_of_none _ h]
  have hcan : ¬ ((List.filter canonical (x :: rest)).map addrText).length > 0 := by
    rw [gt_iff_lt, filter_map_length_pos]
    rintro ⟨y, hy, hc⟩
    have := canonical_conventional y hc
    rw [h y hy] at this
    exact Bool.false_ne_true this
  rw [if_neg hcan]
  simp [addrText]

theorem fallback_first_address_witness :
    InferHostIPv4 (enumerated wlanOnlyExample) "" = some "192.168.1.5" :=
  fallback_first_address ⟨[192, 168, 1, 5], "wlan0"⟩ [] (by decide)

/-- What the tie-break of line 32 does: when `InferHostIPv4("")` is left with
more than one candidate and the name of one of them begins with `en0` or `eth0`,
the returned address is that of the first interface, in enumeration order, whose
name begins with `en0` or `eth0`, whether or not it is named `en0` or `eth0`. -/
theorem tie_break_first_canonical (ips : List Iface)
    (hmany : 1 < (candidates ips).length)
    (h : ∃ x ∈ candidates ips, canonical x = true) :
    ∃ y, ips.find? canonical = some y ∧
      InferHostIPv4 (enumerated ips) "" = some (IP.String y.IP) := by
  have hips : ∃ x ∈ ips, canonical x = true := by
    obtain ⟨x, hx, hc⟩ := h
    refine ⟨x, ?_, hc⟩
    unfold candidates at hx
    split at hx
    · exact hx
    · exact (List.mem_filter.1 hx).1
  have hpos := (filter_map_length_pos ips canonical addrText).2 hips
  obtain ⟨y, hy, -, -, hfirst⟩ := first_of_filter_pos ips canonical hpos
  refine ⟨y, hy, ?_⟩
  rw [InferHostIPv4_empty_name, inferDefault_enumerated,
    if_neg (by rw [List.length_map]; omega), if_pos hpos]
  exact hfirst

theorem tie_break_first_canonical_witness :
    (∃ y, canonicalSecondExample.find? canonical = some y ∧
        InferHostIPv4 (enumerated canonicalSecondExample) "" = some (IP.String y.IP))
      ∧ InferHostIPv4 (enumerated canonicalSecondExample) "" = some "10.0.0.2" :=
  ⟨tie_break_first_canonical canonicalSecondExample (by decide) (by decide), by decide⟩

/-- C7: the code at the failing input. With `eth01` listed before `eth0` there
are two candidates, one of them is named `eth0`, and `InferHostIPv4("")` returns
`10.0.0.7`, the address of `eth01`, not of an interface named `eth0` or `en0`:
the tie-break of line 32 matches the beginning of the name. On the same list the
path for a configured name, which matches exactly first, does return the address
of `eth0`. -/
theorem tie_break_not_exact_name :
    1 < (candidates tieBreakExample).length
      ∧ (∃ x ∈ candidates tieBreakExample, x.IfaceName = "eth0" ∨ x.IfaceName = "en0")
      ∧ InferHostIPv4 (enumerated tieBreakExample) "" = some "10.0.0.7"
      ∧ (¬ ∃ y ∈ tieBreakExample, (y.IfaceName = "eth0" ∨ y.IfaceName = "en0")
          ∧ InferHostIPv4 (enumerated tieBreakExample) "" = some (IP.String y.IP))
      ∧ InferHostIPv4 (enumerated tieBreakExample) "eth0" = some "10.0.0.2" := by
  decide

/-! ## Node id -/

theorem parseIPv4Loop_octet (n : Nat) (hn : n < 256) (rest : List Char) (atStart prevDot : Bool)
    (fields : List Nat) :
    parseIPv4Loop ((toString n).data ++ rest) atStart prevDot fields 0 0
      = parseIPv4Loop rest false false fields n (toString n).length := by
  interval_cases n <;> rfl

theorem parseAddrScan_octet (parseIPv6 : String → Option Addr16) (s : String) (n : Nat) (hn : n < 256)
    (rest : List Char) :
    parseAddrScan parseIPv6 s ((toString n).data ++ '.' :: rest) = parseIPv4 s := by
  interval_cases n <;> rfl

theorem octet_data_ne_nil (n : Nat) (hn : n < 256) : (toString n).data ≠ [] := by
  interval_cases n <;> decide
theorem parseIPv4Loop_dot (rest : List Char) (fields : List Nat) (val digLen : Nat)
    (hrest : rest ≠ []) (hlen : fields.length ≠ 3) :
    parseIPv4Loop ('.' :: rest) false false fields val digLen
      = parseIPv4Loop rest false true (fields ++ [val]) 0 0 := by
  rw [parseIPv4Loop]
  simp [hrest, hlen]

theorem parseIPv4_dottedQuad (a b c d : Fin 256) :
    parseIPv4 (dottedQuad a.val b.val c.val d.val) = some (v4Mapped a b c d) := by
  have hdata : (dottedQuad a.val b.val c.val d.val).data
      = (toString a.val).data ++ '.' :: ((toString b.val).data ++ '.' ::
          ((toString c.val).data ++ '.' :: ((toString d.val).data ++ []))) := by
    simp [dottedQuad]
  have hd := octet_data_ne_nil d.val d.isLt
  unfold parseIPv4
  rw [hdata, parseIPv4Loop_octet _ a.isLt, parseIPv4Loop_dot _ _ _ _ (by simp) (by simp),
    parseIPv4Loop_octet _ b.isLt, parseIPv4Loop_dot _ _ _ _ (by simp) (by simp),
    parseIPv4Loop_octet _ c.isLt, parseIPv4Loop_dot _ _ _ _ (by simpa using hd) (by simp),
    parseIPv4Loop_octet _ d.isLt]
  simp only [parseIPv4Loop, List.length_append, List.length_nil, List.length_cons, List.nil_append,
    List.cons_append, Fin.ofNat]
  have e : ∀ x : Fin 256, (⟨x.val % 256, Nat.mod_lt _ (by decide)⟩ : Fin 256) = x :=
    fun x => Fin.ext (Nat.mod_eq_of_lt x.isLt)
  simp [e]

theorem ParseIP_dottedQuad (parseIPv6 : String → Option Addr16) (a b c d : Fin 256) :
    ParseIP parseIPv6 (dottedQuad a.val b.val c.val d.val) = some (v4Mapped a b c d).val := by
  have hdata : (dottedQuad a.val b.val c.val d.val).data
      = (toString a.val).data ++ '.' :: ((toString b.val).data ++ '.' ::
          ((toString c.val).data ++ '.' :: ((toString d.val).data ++ []))) := by
    simp [dottedQuad]
  unfold ParseIP
  rw [hdata, parseAddrScan_octet _ _ _ a.isLt, parseIPv4_dottedQuad]
  rfl

theorem byte_or_shift (a b c d : Fin 256) :
    d.val ||| c.val <<< 8 ||| b.val <<< 16 ||| a.val <<< 24
      = a.val * 2 ^ 24 + b.val * 2 ^ 16 + c.val * 2 ^ 8 + d.val := by
  have ha := a.isLt
  have hb := b.isLt
  have hc := c.isLt
  have hd := d.isLt
  have h1 : d.val ||| c.val <<< 8 = c.val * 2 ^ 8 + d.val := by
    rw [Nat.shiftLeft_eq, Nat.or_comm, Nat.mul_comm, Nat.mul_add_lt_is_or (by omega)]
  have h2 : c.val * 2 ^ 8 + d.val ||| b.val <<< 16 = b.val * 2 ^ 16 + (c.val * 2 ^ 8 + d.val) := by
    rw [Nat.shiftLeft_eq, Nat.or_comm, Nat.mul_comm, Nat.mul_add_lt_is_or (by omega)]
  have h3 : b.val * 2 ^ 16 + (c.val * 2 ^ 8 + d.val) ||| a.val <<< 24
      = a.val * 2 ^ 24 + (b.val * 2 ^ 16 + (c.val * 2 ^ 8 + d.val)) := by
    rw [Nat.shiftLeft_eq, Nat.or_comm, Nat.mul_comm, Nat.mul_add_lt_is_or (by omega)]
  rw [h1, h2, h3]
  omega

/-- C9: the node id is the low byte of the IPv4 address. For bytes `a b c d`,
the text `a.b.c.d` parses to the IPv4-mapped address, whose big-endian 32-bit value
is `a*2^24 + b*2^16 + c*2^8 + d`, and `ipNodeID` of the text is `d`. -/
theorem ipNodeID_low_byte (parseIPv6 : String → Option Addr16) (a b c d : Fin 256) :
    ParseIP parseIPv6 (dottedQuad a.val b.val c.val d.val) = some (v4Mapped a b c d).val
      ∧ IP2Uint32 (v4Mapped a b c d).val
          = some (a.val * 2 ^ 24 + b.val * 2 ^ 16 + c.val * 2 ^ 8 + d.val)
      ∧ ipNodeID parseIPv6 (dottedQuad a.val b.val c.val d.val) = some (d.val : Int) := by
  have hu : IP2Uint32 (v4Mapped a b c d).val
      = some (a.val * 2 ^ 24 + b.val * 2 ^ 16 + c.val * 2 ^ 8 + d.val) := by
    simp only [IP2Uint32, v4Mapped, bigEndianUint32, List.length_cons, List.length_nil,
      List.drop, List.take, if_true]
    rw [byte_or_shift]
  refine ⟨ParseIP_dottedQuad parseIPv6 a b c d, hu, ?_⟩
  unfold ipNodeID
  rw [ParseIP_dottedQuad]
  simp only [hu]
  have hd := d.isLt
  have : (a.val * 2 ^ 24 + b.val * 2 ^ 16 + c.val * 2 ^ 8 + d.val) &&& 0xff = d.val := by
    have e : (0xff : Nat) = 2 ^ 8 - 1 := by decide
    rw [e, Nat.and_pow_two_sub_one_eq_mod]
    omega
  rw [this]
  rfl

theorem ipNodeID_low_byte_witness :
    dottedQuad 192 168 1 5 = "192.168.1.5" ∧ ipNodeID noIPv6 "192.168.1.5" = some 5 :=
  ⟨by decide, (ipNodeID_low_byte noIPv6 192 168 1 5).2.2⟩

/-- C10: the node id defaults to 0. For a text that is not a parseable IP
address, and for the empty text, `ipNodeID` returns 0 and does not panic. -/
theorem ipNodeID_unparseable (parseIPv6 : String → Option Addr16) (s : String)
    (h : ParseIP parseIPv6 s = none ∨ s = "") : ipNodeID parseIPv6 s = some 0 := by
  have hn : ParseIP parseIPv6 s = none := by
    rcases h with h | h
    · exact h
    · subst h; rfl
  unfold ipNodeID
  rw [hn]

theorem ipNodeID_unparseable_witness :
    ipNodeID noIPv6 "" = some 0 ∧ ipNodeID noIPv6 "no address" = some 0 :=
  ⟨ipNodeID_unparseable noIPv6 "" (Or.inr rfl),
    ipNodeID_unparseable noIPv6 "no address" (Or.inl (by decide))⟩

/-! ## Interface enumeration -/

/-- C11: the code at the failing input. Called with the single mode `IPv6` on
a host whose interface `eth0` has the IPv4 address `192.168.1.5` and the IPv6
address `fe80::1`, `ListIfaces` lists both: `matchesMode` accepts the IPv4
address, in its 4-byte form and in its 16-byte IPv4-mapped form, although
`To4` is not `nil` for it. -/
theorem ListIfaces_IPv6_lists_IPv4 :
    (ListIfaces dualStackHost [IPv6]).ifaces.map addrText = ["192.168.1.5", "fe80::1"]
      ∧ (ListIfaces dualStackHost [IPv6]).err = none
      ∧ matchesMode (makeModeMap [IPv6]) [192, 168, 1, 5] = true
      ∧ IP.To4 [192, 168, 1, 5] ≠ none
      ∧ matchesMode (makeModeMap [IPv6]) (v4Mapped 192 168 1 5).val = true
      ∧ IP.To4 (v4Mapped 192 168 1 5).val ≠ none := by
  decide

/-- With the single mode `IPv6` the filter accepts exactly the addresses of
length 4 or 16, that is every well-formed address, IPv4 ones included. -/
theorem matchesMode_IPv6_only (ip : IP) :
    matchesMode (makeModeMap [IPv6]) ip = decide (ip.length = 4 ∨ ip.length = 16) := by
  have hm : makeModeMap [IPv6] = [IPv6] := by decide
  have h0 : ¬ IPv4v6 ∈ [IPv6] := by decide
  have h1 : ¬ IPv4 ∈ [IPv6] := by decide
  have h2 : IPv6 ∈ [IPv6] := by decide
  rw [hm, matchesMode, if_neg h0, if_neg h1, if_pos h2]
  unfold IP.To16
  split
  · simp
  · rename_i hne
    by_cases h16 : ip.length = 16
    · simp [h16]
    · have h4 : ip.length ≠ 4 := by
        intro h4
        match ip, h4 with
        | [a, b, c, d], _ => exact hne a b c d rfl
      simp [h16, h4]

/-! ## Ordering of identifiers -/

/-- C12: IDs are comparable by creation time. For every layout and every two IDs
`a` and `b` whose epoch additions do not overflow, `a ≤ b` implies
`TimeOf(a) ≤ TimeOf(b)`, and `TimeOf(a) < TimeOf(b)` implies `a < b`. -/
theorem TimeOf_monotone (n : Node) (a b : Int)
    (ha : -2 ^ 63 ≤ shr64 a n.timeShift + n.epoch ∧ shr64 a n.timeShift + n.epoch < 2 ^ 63)
    (hb : -2 ^ 63 ≤ shr64 b n.timeShift + n.epoch ∧ shr64 b n.timeShift + n.epoch < 2 ^ 63) :
    (a ≤ b → n.TimeOf a ≤ n.TimeOf b) ∧ (n.TimeOf a < n.TimeOf b → a < b) := by
  have hmono : a ≤ b → n.TimeOf a ≤ n.TimeOf b := by
    intro hab
    unfold Node.TimeOf add64
    rw [wrap64_of_range ha.1 ha.2, wrap64_of_range hb.1 hb.2]
    have : shr64 a n.timeShift ≤ shr64 b n.timeShift := by
      unfold shr64
      exact Int.ediv_le_ediv (by positivity) hab
    omega
  refine ⟨hmono, ?_⟩
  intro hlt
  by_contra hnot
  have hba : b ≤ a := by omega
  have hmono2 : n.TimeOf b ≤ n.TimeOf a := by
    unfold Node.TimeOf add64
    rw [wrap64_of_range ha.1 ha.2, wrap64_of_range hb.1 hb.2]
    have : shr64 b n.timeShift ≤ shr64 a n.timeShift := by
      unfold shr64
      exact Int.ediv_le_ediv (by positivity) hba
    omega
  omega

theorem TimeOf_monotone_witness :
    (exampleNode.encode 5 3 7 ≤ exampleNode.encode 6 1 0 →
        exampleNode.TimeOf (exampleNode.encode 5 3 7) ≤ exampleNode.TimeOf (exampleNode.encode 6 1 0))
      ∧ exampleNode.encode 5 3 7 < exampleNode.encode 6 1 0
      ∧ exampleNode.TimeOf (exampleNode.encode 5 3 7) < exampleNode.TimeOf (exampleNode.encode 6 1 0) :=
  ⟨(TimeOf_monotone exampleNode (exampleNode.encode 5 3 7) (exampleNode.encode 6 1 0)
      ⟨by decide, by decide⟩ ⟨by decide, by decide⟩).1, by decide, by decide⟩

/-! ## `HostIPv4` as a filter -/

theorem matchLoop_eq_true_iff (mode : IfaceNameMatchMode) (name : String) (names : List String) :
    matchLoop mode name names = true ↔
      (mode = IfaceNameMatchPrefix ∧ ∃ n ∈ names, HasPrefix name n = true)
        ∨ (mode = IfaceNameMatchExactly ∧ ∃ n ∈ names, name = n) := by
  have h01 : IfaceNameMatchExactly ≠ IfaceNameMatchPrefix := by decide
  induction names with
  | nil => simp [matchLoop]
  | cons x xs ih =>
    unfold matchLoop
    by_cases hp : mode = IfaceNameMatchPrefix
    · subst hp
      rw [if_pos rfl]
      by_cases hx : HasPrefix name x = true
      · simp [hx]
      · rw [if_neg hx]
        simp [ih, h01.symm, hx]
    · rw [if_neg hp]
      by_cases he : mode = IfaceNameMatchExactly
      · subst he
        rw [if_pos rfl]
        by_cases hx : name = x
        · simp [hx]
        · rw [if_neg hx]
          simp [ih, h01, hx]
      · rw [if_neg he]
        simp [ih, hp, he]

theorem match_eq_matchesSpec (mode : IfaceNameMatchMode) (names : List String) (name : String) :
    IfaceNameMatchMode.match mode names name = matchesSpec mode names name := by
  unfold IfaceNameMatchMode.match matchesSpec
  cases names with
  | nil => simp
  | cons x xs =>
    rw [if_neg (by simp)]
    rw [Bool.eq_iff_iff, matchLoop_eq_true_iff]
    simp

/-- C16: `HostIPv4` is an order-preserving filter. For every mode, every list of
names and every enumerated interface list `ips`, it returns without error, in
enumeration order, exactly the textual addresses of the interfaces of `ips`
whose name matches in the specification's sense (`matchesSpec`); with no names
it returns every address of `ips`. -/
theorem HostIPv4_filter (ips : List Iface) (mode : IfaceNameMatchMode) (names : List String) :
    HostIPv4 (enumerated ips) mode names
        = ((ips.filter (fun x => matchesSpec mode names x.IfaceName)).map addrText, none)
      ∧ HostIPv4 (enumerated ips) mode [] = (ips.map addrText, none) := by
  have hf : ∀ ns, (fun a : Iface => IfaceNameMatchMode.match mode ns a.IfaceName)
      = fun x => matchesSpec mode ns x.IfaceName := by
    intro ns; funext a; rw [match_eq_matchesSpec]
  have hall : (fun x : Iface => matchesSpec mode [] x.IfaceName) = fun _ => true := by
    funext x; simp [matchesSpec]
  constructor
  · simp only [HostIPv4, enumerated, hf]
    rfl
  · simp only [HostIPv4, enumerated, hf, hall, List.filter_true]
    rfl

/-- C15: an unmatched preferred name falls through to the default policy. For
every enumeration result and every non-empty `ifaceName` that is not the
beginning of any interface name of the list, `InferHostIPv4(ifaceName)` is
`InferHostIPv4("")`. -/
theorem unmatched_name_falls_through (env : Enumeration) (ifaceName : String)
    (hname : ifaceName ≠ "")
    (hno : ∀ x ∈ env.ifaces, HasPrefix x.IfaceName ifaceName = false) :
    InferHostIPv4 env ifaceName = InferHostIPv4 env "" := by
  have hne : ∀ x ∈ env.ifaces, x.IfaceName ≠ ifaceName := by
    intro x hx he
    have := hno x hx
    rw [he] at this
    unfold HasPrefix at this
    rw [← Bool.not_eq_true, List.isPrefixOf_iff_prefix] at this
    exact this (List.prefix_refl _)
  have h1 : (HostIPv4 env IfaceNameMatchExactly [ifaceName]).1 = [] := by
    unfold HostIPv4
    cases env.err with
    | some e => rfl
    | none =>
      simp only [List.map_eq_nil_iff, List.filter_eq_nil_iff, match_exactly_one]
      intro x hx
      simpa using hne x hx
  have h2 : (HostIPv4 env IfaceNameMatchPrefix [ifaceName]).1 = [] := by
    unfold HostIPv4
    cases env.err with
    | some e => rfl
    | none =>
      simp only [List.map_eq_nil_iff, List.filter_eq_nil_iff, match_byPrefix_one]
      intro x hx
      simp [hno x hx]
  rw [InferHostIPv4_empty_name]
  unfold InferHostIPv4
  simp [hname, h1, h2]

theorem unmatched_name_falls_through_witness :
    InferHostIPv4 (enumerated specExample) "docker" = InferHostIPv4 (enumerated specExample) ""
      ∧ InferHostIPv4 (enumerated specExample) "docker" = some "10.0.0.2" :=
  ⟨unmatched_name_falls_through (enumerated specExample) "docker" (by decide) (by decide),
    by decide⟩

theorem HostIPv4_filter_witness :
    HostIPv4 (enumerated exactExample) IfaceNameMatchPrefix ["wlan"]
        = ((exactExample.filter (fun x => matchesSpec IfaceNameMatchPrefix ["wlan"] x.IfaceName)).map
            addrText, none)
      ∧ (HostIPv4 (enumerated exactExample) IfaceNameMatchPrefix ["wlan"]).1
          = ["10.0.0.2", "10.0.0.3"]
      ∧ (HostIPv4 (enumerated exactExample) IfaceNameMatchExactly ["wlan", "eth0"]).1
          = ["10.0.0.1"] :=
  ⟨(HostIPv4_filter exactExample IfaceNameMatchPrefix ["wlan"]).1, by decide, by decide⟩

/-! ## Node id: both address forms, eight bits -/

/-- C17: `IP2Uint32` gives the same value for both forms of an IPv4 address. For
all bytes `a b c d`, the 4-byte address `[a, b, c, d]` and every 16-byte address
whose last four bytes are `a b c d` both give `a*2^24 + b*2^16 + c*2^8 + d`. -/
theorem IP2Uint32_both_forms (a b c d : Fin 256) (head : List (Fin 256))
    (hlen : head.length = 12) :
    IP2Uint32 [a, b, c, d] = some (a.val * 2 ^ 24 + b.val * 2 ^ 16 + c.val * 2 ^ 8 + d.val)
      ∧ IP2Uint32 (head ++ [a, b, c, d])
          = some (a.val * 2 ^ 24 + b.val * 2 ^ 16 + c.val * 2 ^ 8 + d.val) := by
  constructor
  · simp only [IP2Uint32, bigEndianUint32, List.length_cons, List.length_nil]
    rw [if_neg (by decide), byte_or_shift]
  · have h16 : (head ++ [a, b, c, d]).length = 16 := by simp [hlen]
    have hdrop : (head ++ [a, b, c, d]).drop 12 = [a, b, c, d] := by
      rw [← hlen, List.drop_left]
    simp only [IP2Uint32, h16, hdrop, if_true, List.take, bigEndianUint32]
    rw [byte_or_shift]

theorem IP2Uint32_both_forms_witness :
    IP2Uint32 [192, 168, 1, 5] = some 3232235781
      ∧ IP2Uint32 [0, 0, 0, 0, 0, 0, 0, 0, 0, 0, 255, 255, 192, 168, 1, 5] = some 3232235781 :=
  IP2Uint32_both_forms 192 168 1 5 [0, 0, 0, 0, 0, 0, 0, 0, 0, 0, 255, 255] rfl

theorem ParseIP_length (parseIPv6 : String → Option Addr16) (s : String) (parsed : IP)
    (h : ParseIP parseIPv6 s = some parsed) : parsed.length = 16 := by
  unfold ParseIP at h
  cases hp : parseAddrScan parseIPv6 s s.data with
  | none => rw [hp] at h; exact absurd h (by simp)
  | some a =>
    rw [hp] at h
    simp only [Option.map_some', Option.some.injEq] at h
    rw [← h]
    exact a.property

theorem IP2Uint32_of_length_16 (ip : IP) (h : ip.length = 16) : ∃ u, IP2Uint32 ip = some u := by
  match ip, h with
  | [b0, b1, b2, b3, b4, b5, b6, b7, b8, b9, b10, b11, b12, b13, b14, b15], _ =>
    exact ⟨_, rfl⟩

/-- C18: the derived node id fits in 8 bits. For every input text and every
IPv6 parser, `ipNodeID` returns (it does not panic) a value between 0 and 255,
and whenever the text parses the parsed address has 16 bytes, so `IP2Uint32`
never reads outside it. -/
theorem ipNodeID_eight_bits (parseIPv6 : String → Option Addr16) (s : String) :
    (∃ v, ipNodeID parseIPv6 s = some v ∧ 0 ≤ v ∧ v ≤ 255)
      ∧ (∀ parsed, ParseIP parseIPv6 s = some parsed →
          parsed.length = 16 ∧ ∃ u, IP2Uint32 parsed = some u) := by
  have hreach : ∀ parsed, ParseIP parseIPv6 s = some parsed →
      parsed.length = 16 ∧ ∃ u, IP2Uint32 parsed = some u := by
    intro parsed h
    have hl := ParseIP_length parseIPv6 s parsed h
    exact ⟨hl, IP2Uint32_of_length_16 parsed hl⟩
  refine ⟨?_, hreach⟩
  unfold ipNodeID
  cases hp : ParseIP parseIPv6 s with
  | none => exact ⟨0, rfl, by decide, by decide⟩
  | some parsed =>
    obtain ⟨-, u, hu⟩ := hreach parsed hp
    simp only [hu]
    refine ⟨_, rfl, by simp, ?_⟩
    have e : (0xff : Nat) = 2 ^ 8 - 1 := by decide
    have : u &&& 0xff < 256 := by
      rw [e, Nat.and_pow_two_sub_one_eq_mod]
      exact Nat.mod_lt _ (by decide)
    simp only [Int.ofNat_eq_coe]
    omega

theorem ipNodeID_eight_bits_witness :
    (∃ v, ipNodeID noIPv6 "10.1.2.255" = some v ∧ 0 ≤ v ∧ v ≤ 255)
      ∧ ipNodeID noIPv6 "10.1.2.255" = some 255 :=
  ⟨(ipNodeID_eight_bits noIPv6 "10.1.2.255").1, by decide⟩

/-! ## The codec on every 64-bit value -/

theorem bits64_cast (x : Int) : ((bits64 x : Nat) : Int) = x % 2 ^ 64 := by
  unfold bits64
  exact Int.toNat_of_nonneg (Int.emod_nonneg _ (by norm_num))

theorem bits64_lt (x : Int) : bits64 x < 2 ^ 64 := by
  have h := Int.emod_lt_of_pos x (show (0 : Int) < 2 ^ 64 by norm_num)
  rw [← bits64_cast] at h
  exact_mod_cast h

theorem wrap64_emod (x r : Int) :
    wrap64 (x % 2 ^ 64 + r) = wrap64 (x + r) := by
  unfold wrap64
  omega

theorem two_pow_dvd_two_pow_int {k m : Nat} (h : k ≤ m) : ((2 : Int) ^ k) ∣ 2 ^ m :=
  pow_dvd_pow 2 h

/-- `x | r` is `x + r` when the low `k` bits of `x` are zero and `r` fits in them. -/
theorem or64_add {x : Int} {r k : Nat} (hk : k ≤ 63) (h0 : -2 ^ 63 ≤ x) (h1 : x < 2 ^ 63)
    (hdvd : ((2 : Int) ^ k) ∣ x) (hr : r < 2 ^ k) : or64 x (r : Int) = x + r := by
  have hk63 : (2 : Nat) ^ k ≤ 2 ^ 63 := Nat.pow_le_pow_right (by decide) hk
  have hd64 : ((2 : Int) ^ k) ∣ x % 2 ^ 64 := by
    rw [Int.emod_def]
    exact dvd_sub hdvd (Dvd.dvd.mul_right (two_pow_dvd_two_pow_int (by omega)) _)
  rw [← bits64_cast] at hd64
  have hdn : (2 ^ k : Nat) ∣ bits64 x := by
    have : (((2 ^ k : Nat) : Int)) ∣ (bits64 x : Int) := by push_cast; exact hd64
    exact Int.natCast_dvd_natCast.1 this
  obtain ⟨q, hq⟩ := hdn
  have hor : bits64 x ||| r = bits64 x + r := by
    rw [hq, Nat.mul_add_lt_is_or hr]
  -- the sum stays below 2^63
  obtain ⟨m, hm⟩ := hdvd
  have hsum : x + r < 2 ^ 63 := by
    have e63 : (2 : Int) ^ 63 = 2 ^ k * 2 ^ (63 - k) := by
      rw [← pow_add]; congr 1; omega
    have hpos : (0 : Int) < 2 ^ k := by positivity
    have hm1 : m < 2 ^ (63 - k) := by
      by_contra hcon
      push_neg at hcon
      have : (2 : Int) ^ k * 2 ^ (63 - k) ≤ 2 ^ k * m := Int.mul_le_mul_of_nonneg_left hcon hpos.le
      omega
    have hm2 : m + 1 ≤ 2 ^ (63 - k) := hm1
    have : (2 : Int) ^ k * (m + 1) ≤ 2 ^ k * 2 ^ (63 - k) := Int.mul_le_mul_of_nonneg_left hm2 hpos.le
    have hr' : (r : Int) < 2 ^ k := by exact_mod_cast hr
    rw [hm, e63]
    linarith
  unfold or64
  rw [bits64_natCast (by omega), hor]
  simp only [Int.ofNat_eq_coe]
  push_cast
  rw [bits64_cast, wrap64_emod]
  exact wrap64_of_range (by omega) hsum

theorem int_two_pow_sub_one (k : Nat) : ((2 : Int) ^ k - 1) = ((2 ^ k - 1 : Nat) : Int) := by
  have : 1 ≤ 2 ^ k := Nat.one_le_two_pow
  push_cast [Nat.cast_sub this]
  rfl

/-- `x & (2^k - 1)` is `x mod 2^k`, for negative `x` too. -/
theorem and64_low_mask (x : Int) {k : Nat} (hk : k ≤ 63) :
    and64 x (2 ^ k - 1) = x % 2 ^ k := by
  have hk63 : (2 : Nat) ^ k ≤ 2 ^ 63 := Nat.pow_le_pow_right (by decide) hk
  have hpos : 0 < 2 ^ k := Nat.two_pow_pos k
  unfold and64
  rw [int_two_pow_sub_one, bits64_natCast (by omega), Nat.and_pow_two_sub_one_eq_mod]
  simp only [Int.ofNat_eq_coe]
  have hlt : bits64 x % 2 ^ k < 2 ^ k := Nat.mod_lt _ hpos
  rw [wrap64_of_range (by omega) (by omega)]
  push_cast
  rw [bits64_cast]
  exact Int.emod_emod_of_dvd x (two_pow_dvd_two_pow_int (by omega))

theorem emod_ediv_two_pow (x : Int) {a b : Nat} (h : a + b ≤ 64) :
    (x % 2 ^ 64 / 2 ^ a) % 2 ^ b = (x / 2 ^ a) % 2 ^ b := by
  have e64 : (2 : Int) ^ 64 = 2 ^ a * (2 ^ b * 2 ^ (64 - a - b)) := by
    rw [← pow_add, ← pow_add]; congr 1; omega
  have hx : x = x % 2 ^ 64 + 2 ^ a * (2 ^ b * 2 ^ (64 - a - b) * (x / 2 ^ 64)) := by
    have := Int.emod_add_ediv x (2 ^ 64)
    rw [e64] at this ⊢
    linarith
  have hpa : (2 : Int) ^ a ≠ 0 := by positivity
  conv_rhs => rw [hx, Int.add_mul_ediv_left _ _ hpa, Int.mul_assoc, Int.add_mul_emod_self_left]

/-- `x & (m << s)` for the mask `m = 2^w - 1`: the field of width `w` at
position `s`, left in place. -/
theorem and64_field_mask (x : Int) {w s : Nat} (h : w + s ≤ 63) :
    and64 x (((2 ^ w - 1) * 2 ^ s : Nat) : Int) = (x / 2 ^ s) % 2 ^ w * 2 ^ s := by
  have hmlt : (2 ^ w - 1) * 2 ^ s < 2 ^ 63 := by
    have h1 : (2 ^ w - 1) * 2 ^ s < 2 ^ w * 2 ^ s :=
      Nat.mul_lt_mul_of_pos_right (Nat.sub_lt (Nat.two_pow_pos _) Nat.one_pos) (Nat.two_pow_pos _)
    rw [← pow_add] at h1
    exact h1.trans_le (Nat.pow_le_pow_right (by decide) h)
  unfold and64
  rw [bits64_natCast (by omega), ← Nat.shiftLeft_eq, nat_and_shiftLeft,
    Nat.and_pow_two_sub_one_eq_mod, Nat.shiftRight_eq_div_pow, Nat.shiftLeft_eq]
  have hfield : bits64 x / 2 ^ s % 2 ^ w * 2 ^ s < 2 ^ 63 := by
    have h1 : bits64 x / 2 ^ s % 2 ^ w < 2 ^ w := Nat.mod_lt _ (Nat.two_pow_pos _)
    have h2 : bits64 x / 2 ^ s % 2 ^ w * 2 ^ s < 2 ^ w * 2 ^ s :=
      Nat.mul_lt_mul_of_pos_right h1 (Nat.two_pow_pos _)
    rw [← pow_add] at h2
    exact h2.trans_le (Nat.pow_le_pow_right (by decide) h)
  simp only [Int.ofNat_eq_coe]
  rw [wrap64_of_range (by omega) (by omega)]
  push_cast
  rw [bits64_cast, emod_ediv_two_pow x (by omega)]

/-- The node mask of a layout, as a natural number. -/
theorem nodeMask_natCast {nb sb : Nat} (h : nb + sb ≤ 63) :
    shl64 (2 ^ nb - 1) sb = (((2 ^ nb - 1) * 2 ^ sb : Nat) : Int) := by
  have hmlt : (2 ^ nb - 1) * 2 ^ sb < 2 ^ 63 := by
    have h1 : (2 ^ nb - 1) * 2 ^ sb < 2 ^ nb * 2 ^ sb :=
      Nat.mul_lt_mul_of_pos_right (Nat.sub_lt (Nat.two_pow_pos _) Nat.one_pos) (Nat.two_pow_pos _)
    rw [← pow_add] at h1
    exact h1.trans_le (Nat.pow_le_pow_right (by decide) h)
  rw [int_two_pow_sub_one, shl64_natCast hmlt]

theorem StepOf_eq_emod (n : Node) (sb : Nat) (x : Int) (hsb : sb ≤ 63)
    (hsm : n.stepMask = 2 ^ sb - 1) : n.StepOf x = x % 2 ^ sb := by
  unfold Node.StepOf
  rw [hsm, and64_low_mask x hsb]

theorem NodeIDOf_eq_field (n : Node) (nb sb : Nat) (x : Int) (h : nb + sb ≤ 63)
    (hns : n.nodeShift = sb) (hnm : n.nodeMask = shl64 (2 ^ nb - 1) n.nodeShift) :
    n.NodeIDOf x = (x / 2 ^ sb) % 2 ^ nb := by
  unfold Node.NodeIDOf
  rw [hnm, hns, nodeMask_natCast h, and64_field_mask x h]
  unfold shr64
  exact Int.mul_ediv_cancel _ (by positivity)


theorem two_pow_split (k : Nat) (h : k ≤ 63) : (2 : Int) ^ (63 - k) * 2 ^ k = 2 ^ 63 := by
  rw [← pow_add]; congr 1; omega

/-- The packed value of a signed timestamp field and two in-range fields. -/
theorem encode_signed (n : Node) (nb sb : Nat) (t : Int) (m s : Nat) (h : nb + sb ≤ 63)
    (hts : n.timeShift = nb + sb) (hns : n.nodeShift = sb)
    (ht0 : -2 ^ (63 - (nb + sb)) ≤ t) (ht1 : t < 2 ^ (63 - (nb + sb)))
    (hm : m < 2 ^ nb) (hs : s < 2 ^ sb) :
    n.encode t (m : Int) (s : Int) = t * 2 ^ (nb + sb) + (m : Int) * 2 ^ sb + (s : Int) := by
  have hsplit := two_pow_split (nb + sb) h
  have hpos : (0 : Int) < 2 ^ (nb + sb) := by positivity
  have hlo : -2 ^ 63 ≤ t * 2 ^ (nb + sb) := by
    have := Int.mul_le_mul_of_nonneg_right ht0 hpos.le
    rw [← hsplit]; linarith
  have hhi : t * 2 ^ (nb + sb) + 2 ^ (nb + sb) ≤ 2 ^ 63 := by
    have h1 : t + 1 ≤ 2 ^ (63 - (nb + sb)) := ht1
    have := Int.mul_le_mul_of_nonneg_right h1 hpos.le
    rw [← hsplit]; linarith
  have hmlt : m * 2 ^ sb < 2 ^ (nb + sb) := by
    rw [pow_add]; exact Nat.mul_lt_mul_of_pos_right hm (Nat.two_pow_pos sb)
  have hmslt : m * 2 ^ sb + s < 2 ^ (nb + sb) := by
    have : (m + 1) * 2 ^ sb ≤ 2 ^ nb * 2 ^ sb := Nat.mul_le_mul_right _ hm
    rw [pow_add]; nlinarith
  have h63 : (2 : Nat) ^ (nb + sb) ≤ 2 ^ 63 := Nat.pow_le_pow_right (by decide) h
  have hmI : ((m * 2 ^ sb : Nat) : Int) < 2 ^ (nb + sb) := by exact_mod_cast hmlt
  have hmsI : ((m * 2 ^ sb : Nat) : Int) + (s : Int) < 2 ^ (nb + sb) := by exact_mod_cast hmslt
  unfold Node.encode
  rw [hts, hns]
  have e1 : shl64 t (nb + sb) = t * 2 ^ (nb + sb) :=
    wrap64_of_range hlo (by linarith)
  have e2 : shl64 (m : Int) sb = ((m * 2 ^ sb : Nat) : Int) := shl64_natCast (by omega)
  rw [e1, e2, or64_add h hlo (by linarith) (Dvd.intro_left _ rfl) hmlt]
  have hd : ((2 : Int) ^ sb) ∣ t * 2 ^ (nb + sb) + ((m * 2 ^ sb : Nat) : Int) := by
    push_cast
    rw [pow_add]
    exact ⟨t * 2 ^ nb + m, by ring⟩
  rw [or64_add (by omega) (by linarith [Int.ofNat_nonneg (m * 2 ^ sb)]) (by linarith) hd hs]
  push_cast
  ring

theorem wrap64_sub_wrap64_add_signed (t e : Int) (h0 : -2 ^ 63 ≤ t) (h1 : t < 2 ^ 63) :
    wrap64 (wrap64 (t + e) - e) = t := by
  unfold wrap64
  omega

theorem shr64_range (x : Int) (k : Nat) (hk : k ≤ 63) (h0 : -2 ^ 63 ≤ x) (h1 : x < 2 ^ 63) :
    -2 ^ (63 - k) ≤ shr64 x k ∧ shr64 x k < 2 ^ (63 - k) := by
  have hsplit := two_pow_split k hk
  have hpos : (0 : Int) < 2 ^ k := by positivity
  unfold shr64
  constructor
  · rw [Int.le_ediv_iff_mul_le hpos]
    linarith
  · rw [Int.ediv_lt_iff_lt_mul hpos]
    linarith

theorem ediv_ediv_two_pow (x : Int) (nb sb : Nat) :
    x / 2 ^ sb / 2 ^ nb = x / 2 ^ (nb + sb) := by
  have h1 := Int.ediv_add_emod x (2 ^ sb)
  have h2 := Int.ediv_add_emod (x / 2 ^ sb) (2 ^ nb)
  have hs0 := Int.emod_nonneg x (show (2 : Int) ^ sb ≠ 0 by positivity)
  have hs1 := Int.emod_lt_of_pos x (show (0 : Int) < 2 ^ sb by positivity)
  have hm0 := Int.emod_nonneg (x / 2 ^ sb) (show (2 : Int) ^ nb ≠ 0 by positivity)
  have hm1 := Int.emod_lt_of_pos (x / 2 ^ sb) (show (0 : Int) < 2 ^ nb by positivity)
  have hpos : (0 : Int) < 2 ^ (nb + sb) := by positivity
  have hpsb : (0 : Int) < 2 ^ sb := by positivity
  have key := (Int.ediv_emod_unique (a := x) (q := x / 2 ^ sb / 2 ^ nb)
    (r := x / 2 ^ sb % 2 ^ nb * 2 ^ sb + x % 2 ^ sb) hpos).2 (by
      refine ⟨?_, ?_, ?_⟩
      · calc x / 2 ^ sb % 2 ^ nb * 2 ^ sb + x % 2 ^ sb + 2 ^ (nb + sb) * (x / 2 ^ sb / 2 ^ nb)
            = 2 ^ sb * (2 ^ nb * (x / 2 ^ sb / 2 ^ nb) + x / 2 ^ sb % 2 ^ nb) + x % 2 ^ sb := by
              rw [pow_add]; ring
          _ = x := by rw [h2, h1]
      · have := Int.mul_nonneg hm0 hpsb.le
        linarith
      · have h3 : x / 2 ^ sb % 2 ^ nb + 1 ≤ 2 ^ nb := hm1
        have := Int.mul_le_mul_of_nonneg_right h3 hpsb.le
        rw [pow_add]
        linarith)
  exact key.1.symm

/-- Every integer is the sum of its three fields. -/
theorem fields_sum (x : Int) (nb sb : Nat) :
    x / 2 ^ (nb + sb) * 2 ^ (nb + sb) + (x / 2 ^ sb) % 2 ^ nb * 2 ^ sb + x % 2 ^ sb = x := by
  have h1 := Int.ediv_add_emod x (2 ^ sb)
  have h2 := Int.ediv_add_emod (x / 2 ^ sb) (2 ^ nb)
  rw [ediv_ediv_two_pow] at h2
  have e : x / 2 ^ (nb + sb) * 2 ^ (nb + sb)
      = 2 ^ sb * (2 ^ nb * (x / 2 ^ (nb + sb))) := by rw [pow_add]; ring
  rw [e]
  calc 2 ^ sb * (2 ^ nb * (x / 2 ^ (nb + sb))) + x / 2 ^ sb % 2 ^ nb * 2 ^ sb + x % 2 ^ sb
      = 2 ^ sb * (2 ^ nb * (x / 2 ^ (nb + sb)) + x / 2 ^ sb % 2 ^ nb) + x % 2 ^ sb := by ring
    _ = x := by rw [h2, h1]

/-- C19: the three decoded fields partition every bit of an ID. For a layout
with `timeShift = nodeBits + stepBits ≤ 63`, `nodeShift = stepBits`,
`nodeMask = (2^nodeBits - 1) << nodeShift`, `stepMask = 2^stepBits - 1`, and
every `int64` value `id`, negative ones included, packing the decoded fields
`((TimeOf(id) - epoch) << timeShift) | (NodeIDOf(id) << nodeShift) | StepOf(id)`
gives back `id`, with `0 ≤ NodeIDOf(id) < 2^nodeBits` and
`0 ≤ StepOf(id) < 2^stepBits`. -/
theorem fields_partition (n : Node) (nodeBits stepBits : Nat) (id : Int)
    (hbits : nodeBits + stepBits ≤ 63)
    (hts : n.timeShift = nodeBits + stepBits) (hns : n.nodeShift = stepBits)
    (hnm : n.nodeMask = shl64 (2 ^ nodeBits - 1) n.nodeShift)
    (hsm : n.stepMask = 2 ^ stepBits - 1)
    (hid : -2 ^ 63 ≤ id ∧ id < 2 ^ 63) :
    n.encode (sub64 (n.TimeOf id) n.epoch) (n.NodeIDOf id) (n.StepOf id) = id
      ∧ 0 ≤ n.NodeIDOf id ∧ n.NodeIDOf id < 2 ^ nodeBits
      ∧ 0 ≤ n.StepOf id ∧ n.StepOf id < 2 ^ stepBits := by
  have hnode := NodeIDOf_eq_field n nodeBits stepBits id hbits hns hnm
  have hstep := StepOf_eq_emod n stepBits id (by omega) hsm
  have hn0 : 0 ≤ n.NodeIDOf id := by
    rw [hnode]; exact Int.emod_nonneg _ (by positivity)
  have hn1 : n.NodeIDOf id < 2 ^ nodeBits := by
    rw [hnode]; exact Int.emod_lt_of_pos _ (by positivity)
  have hs0 : 0 ≤ n.StepOf id := by
    rw [hstep]; exact Int.emod_nonneg _ (by positivity)
  have hs1 : n.StepOf id < 2 ^ stepBits := by
    rw [hstep]; exact Int.emod_lt_of_pos _ (by positivity)
  refine ⟨?_, hn0, hn1, hs0, hs1⟩
  obtain ⟨hr0, hr1⟩ := shr64_range id (nodeBits + stepBits) hbits hid.1 hid.2
  have h63 : (2 : Int) ^ (63 - (nodeBits + stepBits)) ≤ 2 ^ 63 :=
    pow_le_pow_right₀ (by norm_num) (by omega)
  have htime : sub64 (n.TimeOf id) n.epoch = shr64 id (nodeBits + stepBits) := by
    unfold sub64 Node.TimeOf add64
    rw [hts]
    exact wrap64_sub_wrap64_add_signed _ _ (by linarith) (by linarith)
  rw [htime]
  have hmN : ((n.NodeIDOf id).toNat : Int) = n.NodeIDOf id := Int.toNat_of_nonneg hn0
  have hsN : ((n.StepOf id).toNat : Int) = n.StepOf id := Int.toNat_of_nonneg hs0
  have hmlt : (n.NodeIDOf id).toNat < 2 ^ nodeBits := by
    have : ((n.NodeIDOf id).toNat : Int) < 2 ^ nodeBits := by rw [hmN]; exact hn1
    exact_mod_cast this
  have hslt : (n.StepOf id).toNat < 2 ^ stepBits := by
    have : ((n.StepOf id).toNat : Int) < 2 ^ stepBits := by rw [hsN]; exact hs1
    exact_mod_cast this
  have henc := encode_signed n nodeBits stepBits (shr64 id (nodeBits + stepBits))
    (n.NodeIDOf id).toNat (n.StepOf id).toNat hbits hts hns hr0 hr1 hmlt hslt
  rw [hmN, hsN] at henc
  rw [henc, hnode, hstep]
  unfold shr64
  exact fields_sum id nodeBits stepBits

theorem fields_partition_witness :
    (exampleNode.encode (sub64 (exampleNode.TimeOf (-5)) exampleNode.epoch)
        (exampleNode.NodeIDOf (-5)) (exampleNode.StepOf (-5)) = -5
      ∧ 0 ≤ exampleNode.NodeIDOf (-5) ∧ exampleNode.NodeIDOf (-5) < 2 ^ 10
      ∧ 0 ≤ exampleNode.StepOf (-5) ∧ exampleNode.StepOf (-5) < 2 ^ 12)
      ∧ exampleNode.NodeIDOf (-5) = 1023 ∧ exampleNode.StepOf (-5) = 4091
      ∧ sub64 (exampleNode.TimeOf (-5)) exampleNode.epoch = -1 :=
  ⟨fields_partition exampleNode 10 12 (-5) (by decide) rfl rfl rfl rfl ⟨by decide, by decide⟩,
    by decide, by decide, by decide⟩

theorem NodeIDOf_encode (n : Node) (nb sb : Nat) (t : Int) (m s : Nat) (h : nb + sb ≤ 63)
    (hts : n.timeShift = nb + sb) (hns : n.nodeShift = sb)
    (hnm : n.nodeMask = shl64 (2 ^ nb - 1) n.nodeShift)
    (ht0 : -2 ^ (63 - (nb + sb)) ≤ t) (ht1 : t < 2 ^ (63 - (nb + sb)))
    (hm : m < 2 ^ nb) (hs : s < 2 ^ sb) :
    n.NodeIDOf (n.encode t (m : Int) (s : Int)) = m := by
  rw [encode_signed n nb sb t m s h hts hns ht0 ht1 hm hs,
    NodeIDOf_eq_field n nb sb _ h hns hnm]
  have e : t * 2 ^ (nb + sb) + (m : Int) * 2 ^ sb + (s : Int)
      = (s : Int) + 2 ^ sb * (t * 2 ^ nb + m) := by rw [pow_add]; ring
  have hsI : (s : Int) < 2 ^ sb := by exact_mod_cast hs
  have hmI : (m : Int) < 2 ^ nb := by exact_mod_cast hm
  rw [e, Int.add_mul_ediv_left _ _ (by positivity), Int.ediv_eq_zero_of_lt (by omega) hsI,
    Int.zero_add, Int.add_comm, Int.add_mul_emod_self,
    Int.emod_eq_of_lt (by omega) hmI]

/-- C13: global distinctness across nodes. Under a shared layout with
`nodeBits + stepBits ≤ 63` and the codec's shifts and masks, for every timestamp
delta `t` within bounds, two distinct node ids `n1 ≠ n2` in `[0, 2^nodeBits)` and
two sequences in `[0, 2^stepBits)`, the two packed IDs are different and
`NodeIDOf` gives `n1` for the first and `n2` for the second. -/
theorem distinct_across_nodes (n : Node) (nodeBits stepBits : Nat) (t n1 n2 s1 s2 : Int)
    (hbits : nodeBits + stepBits ≤ 63)
    (hts : n.timeShift = nodeBits + stepBits) (hns : n.nodeShift = stepBits)
    (hnm : n.nodeMask = shl64 (2 ^ nodeBits - 1) n.nodeShift)
    (ht : 0 ≤ t ∧ t < 2 ^ (63 - n.timeShift))
    (hn1 : 0 ≤ n1 ∧ n1 < 2 ^ nodeBits) (hn2 : 0 ≤ n2 ∧ n2 < 2 ^ nodeBits)
    (hs1 : 0 ≤ s1 ∧ s1 < 2 ^ stepBits) (hs2 : 0 ≤ s2 ∧ s2 < 2 ^ stepBits)
    (hne : n1 ≠ n2) :
    n.encode t n1 s1 ≠ n.encode t n2 s2
      ∧ n.NodeIDOf (n.encode t n1 s1) = n1
      ∧ n.NodeIDOf (n.encode t n2 s2) = n2 := by
  obtain ⟨hn10, hn11⟩ := hn1
  obtain ⟨hn20, hn21⟩ := hn2
  obtain ⟨hs10, hs11⟩ := hs1
  obtain ⟨hs20, hs21⟩ := hs2
  lift n1 to Nat using hn10
  lift n2 to Nat using hn20
  lift s1 to Nat using hs10
  lift s2 to Nat using hs20
  rw [hts] at ht
  have ht0 : -2 ^ (63 - (nodeBits + stepBits)) ≤ t := by
    have : (0 : Int) ≤ 2 ^ (63 - (nodeBits + stepBits)) := by positivity
    linarith [ht.1]
  have h1 := NodeIDOf_encode n nodeBits stepBits t n1 s1 hbits hts hns hnm ht0 ht.2
    (by exact_mod_cast hn11) (by exact_mod_cast hs11)
  have h2 := NodeIDOf_encode n nodeBits stepBits t n2 s2 hbits hts hns hnm ht0 ht.2
    (by exact_mod_cast hn21) (by exact_mod_cast hs21)
  refine ⟨?_, h1, h2⟩
  intro heq
  rw [heq, h2] at h1
  exact hne h1.symm

theorem distinct_across_nodes_witness :
    exampleNode.encode 5 3 7 ≠ exampleNode.encode 5 4 7
      ∧ exampleNode.NodeIDOf (exampleNode.encode 5 3 7) = 3
      ∧ exampleNode.NodeIDOf (exampleNode.encode 5 4 7) = 4 :=
  distinct_across_nodes exampleNode 10 12 5 3 4 7 7 (by decide) rfl rfl rfl
    ⟨by decide, by decide⟩ ⟨by decide, by decide⟩ ⟨by decide, by decide⟩
    ⟨by decide, by decide⟩ ⟨by decide, by decide⟩ (by decide)

/-! ## Generator -/

theorem packed_eq (g : Generator) (hv : g.Valid) (hf : g.inField g.lastTimestamp) :
    g.packed = (g.lastTimestamp - g.epoch) * 2 ^ (g.nodeBits + g.stepBits)
      + g.nodeID * 2 ^ g.stepBits + g.sequence := by
  obtain ⟨hbits, ⟨hn0, hn1⟩, ⟨hs0, hs1⟩⟩ := hv
  obtain ⟨hf0, hf1⟩ := hf
  have h63 : (2 : Int) ^ (63 - (g.nodeBits + g.stepBits)) ≤ 2 ^ 63 :=
    pow_le_pow_right₀ (by norm_num) (by omega)
  have hsub : sub64 g.lastTimestamp g.epoch = g.lastTimestamp - g.epoch :=
    wrap64_of_range (by linarith) (by linarith)
  have hmN : ((g.nodeID).toNat : Int) = g.nodeID := Int.toNat_of_nonneg hn0
  have hsN : ((g.sequence).toNat : Int) = g.sequence := Int.toNat_of_nonneg hs0
  have hmlt : (g.nodeID).toNat < 2 ^ g.nodeBits := by
    have : ((g.nodeID).toNat : Int) < 2 ^ g.nodeBits := by rw [hmN]; exact hn1
    exact_mod_cast this
  have hslt : (g.sequence).toNat < 2 ^ g.stepBits := by
    have : ((g.sequence).toNat : Int) < 2 ^ g.stepBits := by rw [hsN]; exact hs1
    exact_mod_cast this
  have henc := encode_signed g.node g.nodeBits g.stepBits (g.lastTimestamp - g.epoch)
    (g.nodeID).toNat (g.sequence).toNat hbits rfl rfl hf0 hf1 hmlt hslt
  rw [hmN, hsN] at henc
  unfold Generator.packed
  rw [hsub, henc]

theorem packed_lt (g h : Generator) (hvg : g.Valid) (hvh : h.Valid) (hc : g.sameConfig h)
    (hfg : g.inField g.lastTimestamp) (hfh : h.inField h.lastTimestamp) (hb : g.before h) :
    g.packed < h.packed := by
  rw [packed_eq g hvg hfg, packed_eq h hvh hfh]
  obtain ⟨he, hnb, hsb, hid⟩ := hc
  rw [he, hnb, hsb, hid]
  obtain ⟨hbits, ⟨hn0, hn1⟩, ⟨hs0, hs1⟩⟩ := hvg
  obtain ⟨-, -, ⟨hs0', hs1'⟩⟩ := hvh
  rw [hsb] at hs1'
  have hpos : (0 : Int) < 2 ^ g.stepBits := by positivity
  rcases hb with hlt | ⟨heq, hlt⟩
  · have h1 : g.lastTimestamp - g.epoch + 1 ≤ h.lastTimestamp - g.epoch := by omega
    have h2 := Int.mul_le_mul_of_nonneg_right h1
      (show (0 : Int) ≤ 2 ^ (g.nodeBits + g.stepBits) by positivity)
    have h3 : g.nodeID + 1 ≤ 2 ^ g.nodeBits := hn1
    have h4 := Int.mul_le_mul_of_nonneg_right h3 hpos.le
    have h5 : (2 : Int) ^ (g.nodeBits + g.stepBits) = 2 ^ g.nodeBits * 2 ^ g.stepBits := pow_add _ _ _
    have h6 := Int.mul_nonneg hn0 hpos.le
    nlinarith
  · rw [heq]
    linarith

theorem waitNextMillis_some (clock : Nat → Int) (last : Int) (fuel k : Nat) (now : Int) (k1 : Nat)
    (h : waitNextMillis clock last fuel k = some (now, k1)) :
    ∃ j, k ≤ j ∧ k1 = j + 1 ∧ now = clock j ∧ last < now := by
  induction fuel generalizing k with
  | zero => simp [waitNextMillis] at h
  | succ f ih =>
    unfold waitNextMillis at h
    by_cases hc : last < clock k
    · rw [if_pos hc] at h
      simp only [Option.some.injEq, Prod.mk.injEq] at h
      exact ⟨k, le_refl _, h.2.symm, h.1.symm, by rw [← h.1]; exact hc⟩
    · rw [if_neg hc] at h
      obtain ⟨j, hj, h1, h2, h3⟩ := ih (k + 1) h
      exact ⟨j, by omega, h1, h2, h3⟩

/-- What one issuing call of `Next` does to the state. -/
theorem Next_issued (clock : Nat → Int) (fuel : Nat) (g : Generator) (k : Nat)
    (id : Int) (g1 : Generator) (k1 : Nat) (hv : g.Valid) (hmono : Monotone clock)
    (hstart : g.lastTimestamp ≤ clock k)
    (h : Generator.Next clock fuel g k = NextResult.issued id g1 k1) :
    id = g1.packed ∧ g1.Valid ∧ g.sameConfig g1 ∧ g1.lastTimestamp ≤ clock k1 ∧ k < k1
      ∧ (∃ j, k ≤ j ∧ j < k1 ∧ g1.lastTimestamp = clock j) ∧ g.before g1 := by
  obtain ⟨hbits, hn, ⟨hs0, hs1⟩⟩ := hv
  have hpos : (0 : Int) < 2 ^ g.stepBits := by positivity
  unfold Generator.Next at h
  rw [if_neg (by omega)] at h
  by_cases heq : clock k = g.lastTimestamp
  · rw [if_pos heq] at h
    by_cases hov : 2 ^ g.stepBits ≤ g.sequence + 1
    · rw [if_pos hov] at h
      cases hw : waitNextMillis clock g.lastTimestamp fuel (k + 1) with
      | none => rw [hw] at h; exact NextResult.noConfusion h
      | some r =>
        obtain ⟨now, k2⟩ := r
        rw [hw] at h
        simp only [NextResult.issued.injEq] at h
        obtain ⟨hid, hg, hk⟩ := h
        obtain ⟨j, hj, hk2, hnow, hlast⟩ := waitNextMillis_some clock _ _ _ _ _ hw
        subst hg hk
        refine ⟨hid.symm, ⟨hbits, hn, le_refl _, hpos⟩, ⟨rfl, rfl, rfl, rfl⟩, ?_, by omega,
          ⟨j, by omega, by omega, hnow⟩, Or.inl hlast⟩
        show now ≤ clock k2
        rw [hnow, hk2]
        exact hmono (Nat.le_succ j)
    · rw [if_neg hov] at h
      simp only [NextResult.issued.injEq] at h
      obtain ⟨hid, hg, hk⟩ := h
      subst hg hk
      refine ⟨hid.symm, ⟨hbits, hn, by show 0 ≤ g.sequence + 1; omega,
          by show g.sequence + 1 < 2 ^ g.stepBits; omega⟩, ⟨rfl, rfl, rfl, rfl⟩, ?_,
        Nat.lt_succ_self k, ⟨k, le_refl _, Nat.lt_succ_self k, heq.symm⟩,
        Or.inr ⟨rfl, by show g.sequence < g.sequence + 1; omega⟩⟩
      show g.lastTimestamp ≤ clock (k + 1)
      exact hstart.trans (hmono (Nat.le_succ k))
  · rw [if_neg heq] at h
    simp only [NextResult.issued.injEq] at h
    obtain ⟨hid, hg, hk⟩ := h
    subst hg hk
    refine ⟨hid.symm, ⟨hbits, hn, le_refl _, hpos⟩, ⟨rfl, rfl, rfl, rfl⟩,
      hmono (Nat.le_succ k), Nat.lt_succ_self k, ⟨k, le_refl _, Nat.lt_succ_self k, rfl⟩,
      Or.inl ?_⟩
    show g.lastTimestamp < clock k
    omega

theorem run_succ_some (clock : Nat → Int) (fuel N : Nat) (g : Generator) (k : Nat)
    (ids : List Int) (g2 : Generator) (k2 : Nat)
    (h : Generator.run clock fuel (N + 1) g k = some (ids, g2, k2)) :
    ∃ id g1 k1 rest, Generator.Next clock fuel g k = NextResult.issued id g1 k1
      ∧ Generator.run clock fuel N g1 k1 = some (rest, g2, k2) ∧ ids = id :: rest := by
  unfold Generator.run at h
  cases hn : Generator.Next clock fuel g k with
  | clockRollback => rw [hn] at h; simp at h
  | waiting => rw [hn] at h; simp at h
  | issued id g1 k1 =>
    rw [hn] at h
    dsimp only at h
    cases hr : Generator.run clock fuel N g1 k1 with
    | none => rw [hr] at h; simp at h
    | some r =>
      obtain ⟨rest, g3, k3⟩ := r
      rw [hr] at h
      simp only [Option.some.injEq, Prod.mk.injEq] at h
      obtain ⟨h1, h2, h3⟩ := h
      subst h2 h3
      exact ⟨id, g1, k1, rest, rfl, hr, h1.symm⟩

theorem run_cursor_le (clock : Nat → Int) (fuel N : Nat) (g : Generator) (k : Nat)
    (ids : List Int) (g2 : Generator) (k2 : Nat) (hv : g.Valid) (hmono : Monotone clock)
    (hstart : g.lastTimestamp ≤ clock k)
    (h : Generator.run clock fuel N g k = some (ids, g2, k2)) : k ≤ k2 := by
  induction N generalizing g k ids with
  | zero =>
    simp only [Generator.run, Option.some.injEq, Prod.mk.injEq] at h
    omega
  | succ N ih =>
    obtain ⟨id, g1, k1, rest, hn, hr, -⟩ := run_succ_some clock fuel N g k ids g2 k2 h
    obtain ⟨-, hv1, -, hs1, hk, -, -⟩ := Next_issued clock fuel g k id g1 k1 hv hmono hstart hn
    have := ih g1 k1 rest hv1 hs1 hr
    omega

/-- The IDs of a run stay above every bound that is below the IDs of the
in-field states after the starting state. -/
theorem run_chain (clock : Nat → Int) (fuel N : Nat) (g : Generator) (k : Nat)
    (ids : List Int) (g2 : Generator) (k2 : Nat) (hv : g.Valid) (hmono : Monotone clock)
    (hstart : g.lastTimestamp ≤ clock k)
    (h : Generator.run clock fuel N g k = some (ids, g2, k2))
    (hfield : ∀ j, k ≤ j → j < k2 → g.inField (clock j))
    (b : Int)
    (hb : ∀ g1 : Generator, g1.Valid → g.sameConfig g1 → g1.inField g1.lastTimestamp →
      g.before g1 → b < g1.packed) :
    List.Chain (fun x y => x < y) b ids := by
  induction N generalizing g k ids b with
  | zero =>
    simp only [Generator.run, Option.some.injEq, Prod.mk.injEq] at h
    rw [← h.1]
    exact List.Chain.nil
  | succ N ih =>
    obtain ⟨id, g1, k1, rest, hn, hr, hids⟩ := run_succ_some clock fuel N g k ids g2 k2 h
    obtain ⟨hid, hv1, hc, hs1, hk, ⟨j, hj0, hj1, hj⟩, hbef⟩ :=
      Next_issued clock fuel g k id g1 k1 hv hmono hstart hn
    have hk12 := run_cursor_le clock fuel N g1 k1 rest g2 k2 hv1 hmono hs1 hr
    have hin1 : g1.inField g1.lastTimestamp := by
      have := hfield j hj0 (by omega)
      unfold Generator.inField at this ⊢
      rw [hc.1, hc.2.1, hc.2.2.1, hj]
      exact this
    have hfield1 : ∀ j, k1 ≤ j → j < k2 → g1.inField (clock j) := by
      intro i hi0 hi1
      have := hfield i (by omega) hi1
      unfold Generator.inField at this ⊢
      rw [hc.1, hc.2.1, hc.2.2.1]
      exact this
    have hlt : b < id := by
      rw [hid]; exact hb g1 hv1 hc hin1 hbef
    have hrest : List.Chain (fun x y => x < y) id rest := by
      apply ih g1 k1 rest hv1 hs1 hr hfield1 id
      intro g3 hv3 hc3 hin3 hbef3
      rw [hid]
      exact packed_lt g1 g3 hv1 hv3 hc3 hin1 hin3 hbef3
    rw [hids]
    exact List.Chain.cons hlt hrest

theorem waitNextMillis_fuel (clock : Nat → Int) (last : Int) (f e k : Nat) (r : Int × Nat)
    (h : waitNextMillis clock last f k = some r) :
    waitNextMillis clock last (f + e) k = some r := by
  induction f generalizing k with
  | zero => simp [waitNextMillis] at h
  | succ f ih =>
    rw [Nat.succ_add]
    unfold waitNextMillis at h ⊢
    by_cases hc : last < clock k
    · rw [if_pos hc] at h ⊢; exact h
    · rw [if_neg hc] at h ⊢; exact ih (k + 1) h

theorem waitNextMillis_ends (clock : Nat → Int) (last : Int) (d k : Nat)
    (h : last < clock (k + d)) : ∃ r, waitNextMillis clock last (d + 1) k = some r := by
  induction d generalizing k with
  | zero =>
    unfold waitNextMillis
    rw [if_pos (by simpa using h)]
    exact ⟨_, rfl⟩
  | succ d ih =>
    unfold waitNextMillis
    by_cases hc : last < clock k
    · rw [if_pos hc]; exact ⟨_, rfl⟩
    · rw [if_neg hc]
      exact ih (k + 1) (by rw [Nat.add_assoc, Nat.add_comm 1 d]; exact h)

theorem Next_fuel (clock : Nat → Int) (f e : Nat) (g : Generator) (k : Nat)
    (id : Int) (g1 : Generator) (k1 : Nat)
    (h : Generator.Next clock f g k = NextResult.issued id g1 k1) :
    Generator.Next clock (f + e) g k = NextResult.issued id g1 k1 := by
  unfold Generator.Next at h ⊢
  split at h
  · exact NextResult.noConfusion h
  · rename_i h1
    rw [if_neg h1]
    split at h
    · rename_i h2
      rw [if_pos h2]
      split at h
      · rename_i h3
        rw [if_pos h3]
        cases hw : waitNextMillis clock g.lastTimestamp f (k + 1) with
        | none => rw [hw] at h; exact NextResult.noConfusion h
        | some r =>
          rw [waitNextMillis_fuel clock _ f e (k + 1) r hw]
          rw [hw] at h
          exact h
      · rename_i h3
        rw [if_neg h3]; exact h
    · rename_i h2
      rw [if_neg h2]; exact h

theorem run_fuel (clock : Nat → Int) (f e N : Nat) (g : Generator) (k : Nat)
    (r : List Int × Generator × Nat) (h : Generator.run clock f N g k = some r) :
    Generator.run clock (f + e) N g k = some r := by
  induction N generalizing g k r with
  | zero => exact h
  | succ N ih =>
    obtain ⟨ids, g2, k2⟩ := r
    obtain ⟨id, g1, k1, rest, hn, hr, hids⟩ := run_succ_some clock f N g k ids g2 k2 h
    unfold Generator.run
    rw [Next_fuel clock f e g k id g1 k1 hn]
    simp only [ih g1 k1 _ hr, hids]

theorem Next_issues (clock : Nat → Int) (g : Generator) (k : Nat) (hmono : Monotone clock)
    (hstart : g.lastTimestamp ≤ clock k) (hlive : ∀ i, ∃ j, clock i < clock j) :
    ∃ fuel id g1 k1, Generator.Next clock fuel g k = NextResult.issued id g1 k1 := by
  have hnr : ¬ clock k < g.lastTimestamp := by omega
  by_cases heq : clock k = g.lastTimestamp
  · by_cases hov : 2 ^ g.stepBits ≤ g.sequence + 1
    · obtain ⟨j, hj⟩ := hlive k
      have hkj : k < j := by
        by_contra hcon
        have := hmono (show j ≤ k by omega)
        omega
      obtain ⟨r, hr⟩ := waitNextMillis_ends clock g.lastTimestamp (j - (k + 1)) (k + 1)
        (by rw [Nat.add_sub_cancel' (by omega), ← heq]; exact hj)
      obtain ⟨now, k2⟩ := r
      exact ⟨j - (k + 1) + 1, _, _, _, by
        unfold Generator.Next
        rw [if_neg hnr, if_pos heq, if_pos hov, hr]⟩
    · exact ⟨0, _, _, _, by
        unfold Generator.Next
        rw [if_neg hnr, if_pos heq, if_neg hov]⟩
  · exact ⟨0, _, _, _, by
      unfold Generator.Next
      rw [if_neg hnr, if_neg heq]⟩

theorem run_issues (clock : Nat → Int) (N : Nat) (g : Generator) (k : Nat) (hv : g.Valid)
    (hmono : Monotone clock) (hstart : g.lastTimestamp ≤ clock k)
    (hlive : ∀ i, ∃ j, clock i < clock j) :
    ∃ fuel ids g2 k2, Generator.run clock fuel N g k = some (ids, g2, k2) ∧ ids.length = N := by
  induction N generalizing g k with
  | zero => exact ⟨0, [], g, k, rfl, rfl⟩
  | succ N ih =>
    obtain ⟨f1, id, g1, k1, hn⟩ := Next_issues clock g k hmono hstart hlive
    obtain ⟨-, hv1, -, hs1, -, -, -⟩ := Next_issued clock f1 g k id g1 k1 hv hmono hstart hn
    obtain ⟨f2, rest, g2, k2, hr, hlen⟩ := ih g1 k1 hv1 hs1
    refine ⟨f1 + f2, id :: rest, g2, k2, ?_, by simp [hlen]⟩
    unfold Generator.run
    rw [Next_fuel clock f1 f2 g k id g1 k1 hn]
    have := run_fuel clock f2 f1 N g1 k1 _ hr
    rw [Nat.add_comm] at this
    simp only [this]

/-- C14, as amended: monotonicity of generation. For a generator instance
within its invariants and a clock that never moves backward (nor behind the
last issued timestamp), a sequential run of `N` calls of `Next` issues strictly
increasing IDs, sequence overflow included, as long as every clock reading of
the run is within the timestamp field of the layout; and when the clock keeps
advancing, the run of `N` calls does issue `N` IDs (every wait ends). -/
theorem Next_strictly_increasing (clock : Nat → Int) (g : Generator) (k : Nat)
    (hv : g.Valid) (hmono : Monotone clock) (hstart : g.lastTimestamp ≤ clock k) :
    (∀ fuel N ids g2 k2, Generator.run clock fuel N g k = some (ids, g2, k2) →
        (∀ j, k ≤ j → j < k2 → g.inField (clock j)) →
        List.Sorted (fun x y => x < y) ids)
      ∧ ((∀ i, ∃ j, clock i < clock j) →
          ∀ N, ∃ fuel ids g2 k2, Generator.run clock fuel N g k = some (ids, g2, k2)
            ∧ ids.length = N) := by
  refine ⟨?_, fun hlive N => run_issues clock N g k hv hmono hstart hlive⟩
  intro fuel N ids g2 k2 hrun hfield
  cases N with
  | zero =>
    simp only [Generator.run, Option.some.injEq, Prod.mk.injEq] at hrun
    rw [← hrun.1]
    exact List.sorted_nil
  | succ N =>
    obtain ⟨id, g1, k1, rest, hn, hr, hids⟩ := run_succ_some clock fuel N g k ids g2 k2 hrun
    obtain ⟨hid, hv1, hc, hs1, hk, ⟨j, hj0, hj1, hj⟩, -⟩ :=
      Next_issued clock fuel g k id g1 k1 hv hmono hstart hn
    have hk12 := run_cursor_le clock fuel N g1 k1 rest g2 k2 hv1 hmono hs1 hr
    have hin1 : g1.inField g1.lastTimestamp := by
      have := hfield j hj0 (by omega)
      unfold Generator.inField at this ⊢
      rw [hc.1, hc.2.1, hc.2.2.1, hj]
      exact this
    have hfield1 : ∀ j, k1 ≤ j → j < k2 → g1.inField (clock j) := by
      intro i hi0 hi1
      have := hfield i (by omega) hi1
      unfold Generator.inField at this ⊢
      rw [hc.1, hc.2.1, hc.2.2.1]
      exact this
    have hchain : List.Chain (fun x y => x < y) id rest := by
      apply run_chain clock fuel N g1 k1 rest g2 k2 hv1 hmono hs1 hr hfield1 id
      intro g3 hv3 hc3 hin3 hbef3
      rw [hid]
      exact packed_lt g1 g3 hv1 hv3 hc3 hin1 hin3 hbef3
    rw [hids]
    have hch : List.Chain' (fun x y : Int => x < y) (id :: rest) := hchain
    exact List.chain'_iff_pairwise.1 hch

theorem slowClock_monotone : Monotone slowClock := by
  intro a b h
  simp only [slowClock]
  omega

theorem lateClock_monotone : Monotone lateClock := by
  intro a b h
  simp only [lateClock]
  omega

theorem Next_strictly_increasing_witness :
    (Generator.run slowClock 2 6 smallGenerator 0).map (fun r => r.1)
        = some [6, 7, 14, 15, 22, 23]
      ∧ List.Sorted (fun x y : Int => x < y) [6, 7, 14, 15, 22, 23]
      ∧ ∃ fuel ids g2 k2, Generator.run slowClock fuel 6 smallGenerator 0 = some (ids, g2, k2)
          ∧ ids.length = 6 :=
  have h := Next_strictly_increasing slowClock smallGenerator 0
    (by unfold Generator.Valid; decide) slowClock_monotone (by decide)
  ⟨by decide,
    h.1 2 6 [6, 7, 14, 15, 22, 23]
      { epoch := 100, nodeBits := 2, stepBits := 1, nodeID := 3, lastTimestamp := 102,
        sequence := 1 } 10 rfl
      (by
        intro j _ hj
        unfold Generator.inField
        interval_cases j <;> decide),
    h.2 (fun i => ⟨i + 4, by simp only [slowClock]; omega⟩) 6⟩

/-- C14, as stated, fails: the clock `2^41 - 1, 2^41, ...` never moves backward,
the generator (10 node bits, 12 sequence bits, epoch 0) is within its
invariants, and the second ID of the run is smaller than the first: the
timestamp `2^41` does not fit the 41 bits of the timestamp field. -/
theorem Next_not_increasing_past_field :
    Generator.Valid freshGenerator
      ∧ freshGenerator.lastTimestamp ≤ lateClock 0
      ∧ (∀ i : Nat, lateClock i ≤ lateClock (i + 1))
      ∧ (Generator.run lateClock 0 2 freshGenerator 0).map (fun r => r.1)
          = some [9223372036850585600, -9223372036854771712]
      ∧ ¬ List.Sorted (fun x y : Int => x < y) [9223372036850585600, -9223372036854771712] :=
  ⟨by unfold Generator.Valid; decide, by decide, fun i => lateClock_monotone (Nat.le_succ i),
    by decide, by decide⟩

end Snow
